import Mathlib

/-!
Shallow embedding of the `byterun.constraint` subsystem (types.py,
constraint_store.py, sat_encoder.py) and proofs about its claimed
properties.

Modelling conventions:

* Python objects of class `Type` become the inductive family `Ty`.
  Lists of types, member dictionaries and MRO class lists are modelled by
  the mutually inductive `TyList`, `Members` and `ClsList` so that the
  structural recursions of the source compile to executable Lean
  recursions.  Python `dict`s are association lists (first binding wins,
  as dictionaries have unique keys); Python `set`s are duplicate-free
  lists, with a fixed iteration order refining the arbitrary hash order.
* Python exceptions are modelled by `PyResult.exn`; recursions whose
  termination Python leaves implicit take an explicit fuel argument and
  return `PyResult.fuelOut` when it runs out (adequate fuel never does).
* `vm` objects only matter through `vm.type_map` (used by the
  `ConstantType` constructor) and the constraint store, which is threaded
  explicitly as a `Store` value.
-/

/-- Kinds of Python exception that the modelled code can raise. -/
inductive PyErr where
  | typeError : PyErr
  | attributeError : PyErr
  | indexError : PyErr
deriving DecidableEq

/-- Result of running a piece of modelled Python code: a value, a raised
exception, or fuel exhaustion (the latter never happens for adequate fuel). -/
inductive PyResult (α : Type) where
  | ok (val : α) : PyResult α
  | exn (e : PyErr) : PyResult α
  | fuelOut : PyResult α
deriving DecidableEq

/-- A literal constant value, identified by the id of its Python class and a
payload distinguishing values of one class. -/
structure PyVal where
  cls : Nat
  ident : Nat
deriving DecidableEq

mutual
/-- The type lattice of `constraint/types.py`: `Object`, `Nothing`,
`Dynamic`, `Function`, `Instance`, `Union`, `ConstantType`, `Variable`.
Only the fields that take part in the behaviour of the methods are kept
(`vm` is threaded separately; `name` is kept where `__eq__`/`__hash__`
or reconstruction consult it). -/
inductive Ty where
  | obj : Ty
  | nothing : Ty
  | dynamic : Ty
  | func (args : TyList) (ret : Ty) (nm : Option String) : Ty
  | inst (mro : ClsList) (mems : Members) (nm : Option String) : Ty
  | union (subtypes : TyList) : Ty
  | const (values : List PyVal) (value_type : Ty) : Ty
  | var (identity : Nat) : Ty

/-- A list of types (tuple of argument types, set of union members). -/
inductive TyList where
  | nil : TyList
  | cons (head : Ty) (tail : TyList) : TyList

/-- A Python dict mapping member names to types. -/
inductive Members where
  | nil : Members
  | cons (name : String) (ty : Ty) (tail : Members) : Members

/-- The (resolved) class list of an MRO; every entry carries the class
name, its `class_members` dict and its `instance_members` dict. -/
inductive ClsList where
  | nil : ClsList
  | cons (cname : String) (cmembers : Members) (imembers : Members)
         (tail : ClsList) : ClsList
end

/-- A single `Class` record, used when MRO lists are taken apart. -/
structure ClassRec where
  cname : String
  cmembers : Members
  imembers : Members

def TyList.toList : TyList → List Ty
  | .nil => []
  | .cons h t => h :: TyList.toList t

def TyList.ofList : List Ty → TyList
  | [] => .nil
  | h :: t => .cons h (TyList.ofList t)

def Members.toPairs : Members → List (String × Ty)
  | .nil => []
  | .cons k v t => (k, v) :: Members.toPairs t

def ClsList.toRecs : ClsList → List ClassRec
  | .nil => []
  | .cons n cm im t => ⟨n, cm, im⟩ :: ClsList.toRecs t

def ClsList.ofRecs : List ClassRec → ClsList
  | [] => .nil
  | c :: t => .cons c.cname c.cmembers c.imembers (ClsList.ofRecs t)

/-- Python `dict.__getitem__`/`get`: first binding for the key. -/
def dictGet : Members → String → Option Ty
  | .nil, _ => none
  | .cons k v t, key => if k = key then some v else dictGet t key

/-- Python `name in dict`. -/
def hasKey (d : Members) (key : String) : Bool := (dictGet d key).isSome

/-- The keys of a member dict, in storage order. -/
def dictKeys : Members → List String
  | .nil => []
  | .cons k _ t => k :: dictKeys t

/-- Entries of `d1` with values overridden by `d2` where keys coincide. -/
def dictOverrideVals (d2 : Members) : Members → Members
  | .nil => .nil
  | .cons k v t =>
    match dictGet d2 k with
    | some v2 => .cons k v2 (dictOverrideVals d2 t)
    | none => .cons k v (dictOverrideVals d2 t)

/-- Entries of `d2` whose key is absent from `d1`. -/
def dictNewEntries (d1 : Members) : Members → Members
  | .nil => .nil
  | .cons k v t =>
    if hasKey d1 k then dictNewEntries d1 t
    else .cons k v (dictNewEntries d1 t)

/-- Concatenation of member dicts. -/
def Members.append : Members → Members → Members
  | .nil, d => d
  | .cons k v t, d => .cons k v (Members.append t d)

/-- `d1.update(d2)` on a fresh copy of `d1`: values of common keys are
replaced in place, new keys are appended. -/
def dictUpdate (d1 d2 : Members) : Members :=
  Members.append (dictOverrideVals d2 d1) (dictNewEntries d1 d2)

mutual
/-- Size of a type term, used as a fuel bound for the fueled recursions. -/
def tySize : Ty → Nat
  | .obj => 1
  | .nothing => 1
  | .dynamic => 1
  | .func args ret _ => 1 + tyListSize args + tySize ret
  | .inst mro mems _ => 1 + clsListSize mro + membersSize mems
  | .union xs => 1 + tyListSize xs
  | .const _ vt => 1 + tySize vt
  | .var _ => 1

def tyListSize : TyList → Nat
  | .nil => 0
  | .cons h t => tySize h + tyListSize t

def membersSize : Members → Nat
  | .nil => 0
  | .cons _ v t => tySize v + membersSize t

def clsListSize : ClsList → Nat
  | .nil => 0
  | .cons _ cm im t => membersSize cm + membersSize im + clsListSize t
end

/-- String-key set inclusion: every key in `ks` occurs in `d`. -/
def keysIncluded (ks : List String) (d : Members) : Bool :=
  ks.all (fun k => hasKey d k)

mutual
/-- Python `==` on types (`Object.__eq__` … `Variable.__eq__`):
`Object`/`Nothing`/`Dynamic` compare by class; `Function` by argument
tuple and return type (names ignored); `Instance` by MRO and
`other_members` (name ignored); `Union` by member-set equality;
`ConstantType` by value type and value set; `Variable` by identity.
Different variants are never equal. -/
def pyEq : Ty → Ty → Bool
  | .obj, .obj => true
  | .nothing, .nothing => true
  | .dynamic, .dynamic => true
  | .func args ret _, .func args2 ret2 _ =>
    tyListEqChain args (TyList.toList args2) && pyEq ret ret2
  | .inst mro mems _, .inst mro2 mems2 _ =>
    mroEqChain mro (ClsList.toRecs mro2) &&
      (keysIncluded (dictKeys mems2) mems && dictEqChain mems mems2)
  | .union xs, .union ys =>
    let ysL := TyList.toList ys
    allMemChain xs ysL && ysL.all (fun u => scanEqChain xs u)
  | .const vs vt, .const vs2 vt2 =>
    pyEq vt vt2 && (vs.all (vs2.contains ·) && vs2.all (vs.contains ·))
  | .var i, .var j => i = j
  | _, _ => false

/-- Tuple equality on type lists: pointwise `==` with equal lengths. -/
def tyListEqChain : TyList → List Ty → Bool
  | .nil, [] => true
  | .cons x xs, y :: ys => pyEq x y && tyListEqChain xs ys
  | _, _ => false

/-- Pointwise `Class.__eq__` along two MRO class lists (tuple equality).
`Class.__eq__` compares the name and the member value lists, not keys. -/
def mroEqChain : ClsList → List ClassRec → Bool
  | .nil, [] => true
  | .cons n cm im rest, c :: cs =>
    (n = c.cname) && memberValsEqChain cm (Members.toPairs c.cmembers) &&
      memberValsEqChain im (Members.toPairs c.imembers) && mroEqChain rest cs
  | _, _ => false

/-- Equality of two dicts' value lists (`dict.values() == dict.values()`). -/
def memberValsEqChain : Members → List (String × Ty) → Bool
  | .nil, [] => true
  | .cons _ v rest, p :: ps => pyEq v p.2 && memberValsEqChain rest ps
  | _, _ => false

/-- Dict equality direction `every key of d1 maps to an equal value in d2`. -/
def dictEqChain : Members → Members → Bool
  | .nil, _ => true
  | .cons k v rest, d2 =>
    (match dictGet d2 k with
     | some u => pyEq v u
     | none => false) && dictEqChain rest d2

/-- Set-inclusion direction `every element of xs equals some element of ysL`. -/
def allMemChain : TyList → List Ty → Bool
  | .nil, _ => true
  | .cons t ts, ysL => ysL.any (fun u => pyEq t u) && allMemChain ts ysL

/-- Set membership of `u` in the list `xs` (scan with `==`). -/
def scanEqChain : TyList → Ty → Bool
  | .nil, _ => false
  | .cons t ts, u => pyEq t u || scanEqChain ts u
end

/-- Membership of a type in a list of types under Python `==`
(models `t in someSet`). -/
def pyMemL (t : Ty) (l : List Ty) : Bool := l.any (fun u => pyEq t u)

/-- Adding a type to a Python set (duplicate-free list). -/
def setInsertTy (acc : List Ty) (t : Ty) : List Ty :=
  if pyMemL t acc then acc else acc ++ [t]

/-- One step of `Union._flatten_subtypes`: a `Union` argument contributes
its member set, any other argument contributes itself. -/
def flattenStep (acc : List Ty) (t : Ty) : List Ty :=
  match t with
  | .union ys => (TyList.toList ys).foldl setInsertTy acc
  | _ => setInsertTy acc t

/-- `Union._flatten_subtypes`: build the set of subtypes, splicing in the
member sets of `Union` arguments. -/
def flattenSubtypes (subtypes : List Ty) : List Ty :=
  subtypes.foldl flattenStep []

/-- `Union.__new__`: flatten, then collapse a singleton to its element and
an empty set to `Nothing`. -/
def mkUnion (subtypes : List Ty) : Ty :=
  match flattenSubtypes subtypes with
  | [t] => t
  | [] => .nothing
  | l => .union (TyList.ofList l)

mutual
/-- `Type.contains_variable`: run `ContainsVisitor(isinstance Variable)` over
the `visit` traversal.  `visit` descends into union members, function
arguments and returns, and instance `other_members`, but not into MROs or
constants. -/
def containsVar : Ty → Bool
  | .var _ => true
  | .union xs => tyListHasVar xs
  | .func args ret _ => tyListHasVar args || containsVar ret
  | .inst _ mems _ => membersHasVar mems
  | .obj => false
  | .nothing => false
  | .dynamic => false
  | .const _ _ => false

def tyListHasVar : TyList → Bool
  | .nil => false
  | .cons h t => containsVar h || tyListHasVar t

def membersHasVar : Members → Bool
  | .nil => false
  | .cons _ v t => containsVar v || membersHasVar t
end

/-- Lookup in a substitution mapping keyed by variable identity
(`mapping.get(tp, tp)` falls back to the variable itself). -/
def lookupSubst : List (Nat × Ty) → Nat → Option Ty
  | [], _ => none
  | (k, t) :: rest, i => if k = i then some t else lookupSubst rest i

mutual
/-- `Type.substitute(mapping) = visit(SubstVisitor(mapping))`: rebuild the
term, replacing variables by their image (without descending into the
image), rebuilding unions through the `Union` constructor, and leaving
MROs and constants untouched. -/
def substTy (m : List (Nat × Ty)) : Ty → Ty
  | .obj => .obj
  | .nothing => .nothing
  | .dynamic => .dynamic
  | .func args ret nm => .func (substTyList m args) (substTy m ret) nm
  | .inst mro mems nm => .inst mro (substMembers m mems) nm
  | .union xs => mkUnion (TyList.toList (substTyList m xs))
  | .const vs vt => .const vs vt
  | .var i => (lookupSubst m i).getD (.var i)

def substTyList (m : List (Nat × Ty)) : TyList → TyList
  | .nil => .nil
  | .cons h t => .cons (substTy m h) (substTyList m t)

def substMembers (m : List (Nat × Ty)) : Members → Members
  | .nil => .nil
  | .cons k v t => .cons k (substTy m v) (substMembers m t)
end

/-- `mro_to_structure(mro, overrides)`: update an empty dict with the class
members then instance members of every class, walking the MRO in reverse,
and finally with the overrides. -/
def mroToStructure (mro : List ClassRec) (overrides : Members) : Members :=
  dictUpdate
    (mro.reverse.foldl
      (fun acc c => dictUpdate (dictUpdate acc c.cmembers) c.imembers)
      Members.nil)
    overrides

/-- `Instance.get_structure`: the MRO structure updated with
`other_members`. -/
def getStructure (mro : ClsList) (mems : Members) : Members :=
  mroToStructure (ClsList.toRecs mro) mems

/-- Python `dict == dict` (same keys, `==`-equal values). -/
def dictFullEq (d1 d2 : Members) : Bool :=
  keysIncluded (dictKeys d2) d1 && dictEqChain d1 d2

/-- Tuple (in)equality on `Class` named tuples, as used by the `!=` in
`is_subsequence`: `Class` inherits `tuple.__ne__`, which compares the
field tuple `(class_members, instance_members, name)` elementwise. -/
def clsTupleEq (c1 c2 : ClassRec) : Bool :=
  dictFullEq c1.cmembers c2.cmembers && dictFullEq c1.imembers c2.imembers &&
    (c1.cname = c2.cname)

/-- Advance past elements of the list until one compares equal to `x`,
consuming it; `none` when the list is exhausted (the inner loop of
`is_subsequence`). -/
def skipToCls (x : ClassRec) : List ClassRec → Option (List ClassRec)
  | [] => none
  | y :: ys => if clsTupleEq y x then some ys else skipToCls x ys

/-- `is_subsequence(left, right)`: every element of `left` occurs in
`right`, in order. -/
def isSubsequence : List ClassRec → List ClassRec → Bool
  | [], _ => true
  | x :: xs, ys =>
    match skipToCls x ys with
    | some rest => isSubsequence xs rest
    | none => false

/-- Short-circuiting `all` over results of modelled Python code: stops at
the first `False`, propagates a raised exception at the point where the
generator item is evaluated. -/
def allMP (f : α → PyResult Bool) : List α → PyResult Bool
  | [] => .ok true
  | x :: xs =>
    match f x with
    | .ok true => allMP f xs
    | .ok false => .ok false
    | .exn e => .exn e
    | .fuelOut => .fuelOut

/-- Short-circuiting `any`, dual to `allMP`. -/
def anyMP (f : α → PyResult Bool) : List α → PyResult Bool
  | [] => .ok false
  | x :: xs =>
    match f x with
    | .ok false => anyMP f xs
    | .ok true => .ok true
    | .exn e => .exn e
    | .fuelOut => .fuelOut

/-- `dict_is_subtype(sub_dict, super_dict)`: every entry of `sub_dict`
must exist in `super_dict` with the sub value a subtype of the super
value. -/
def dictIsSubP (issubf : Ty → Ty → PyResult Bool) :
    Members → Members → PyResult Bool
  | .nil, _ => .ok true
  | .cons k v rest, sup =>
    match dictGet sup k with
    | none => .ok false
    | some sv =>
      match issubf v sv with
      | .ok true => dictIsSubP issubf rest sup
      | .ok false => .ok false
      | .exn e => .exn e
      | .fuelOut => .fuelOut

/-- `Type.issubtypeof` and its overrides, with explicit fuel.  The local
`fb` is the base-class `Type.issubtypeof` fallback, reached from the
variants that do not override the remaining cases (`Function`,
`Instance`, `Variable`); it raises `TypeError` on the unhandled
combinations, exactly as the source does. -/
def issubF : Nat → Ty → Ty → PyResult Bool
  | 0, _, _ => .fuelOut
  | fu + 1, a, b =>
    let fb : Ty → Ty → PyResult Bool := fun a b =>
      if pyEq a b then .ok true
      else
        match b with
        | .obj => .ok true
        | .nothing => .ok false
        | .dynamic => .ok false
        | .const _ vt2 => issubF fu a vt2
        | .union ys => anyMP (fun o => issubF fu a o) (TyList.toList ys)
        | _ => .exn .typeError
    match a with
    | .obj => .ok false
    | .nothing => .ok true
    | .dynamic => .ok false
    | .union xs =>
      let others := match b with | .union ys => TyList.toList ys | _ => [b]
      allMP (fun t => anyMP (fun o => issubF fu t o) others) (TyList.toList xs)
    | .func args ret _ =>
      match b with
      | .func args2 ret2 _ =>
        if (TyList.toList args).length = (TyList.toList args2).length then
          match allMP (fun p => issubF fu p.2 p.1)
              ((TyList.toList args).zip (TyList.toList args2)) with
          | .ok true => issubF fu ret ret2
          | .ok false => .ok false
          | .exn e => .exn e
          | .fuelOut => .fuelOut
        else .ok false
      | .inst _ _ _ => .ok false
      | _ => fb a b
    | .inst mro mems _ =>
      match b with
      | .inst mro2 mems2 _ =>
        if isSubsequence (ClsList.toRecs mro2) (ClsList.toRecs mro) then
          dictIsSubP (fun x y => issubF fu x y) mems (getStructure mro2 mems2)
        else .ok false
      | .func _ _ _ => .ok false
      | _ => fb a b
    | .const vs vt =>
      match b with
      | .const vs2 vt2 =>
        if vs.all (vs2.contains ·) then issubF fu vt vt2 else .ok false
      | _ => issubF fu vt b
    | .var _ => fb a b

/-- The kind tag of a constraint (`SubtypeConstraint` or
`EqualityConstraint`). -/
inductive CKind where
  | subtype : CKind
  | equality : CKind
deriving DecidableEq

/-- A constraint `(left, right)` tagged subtype or equality. -/
structure Constraint where
  kind : CKind
  left : Ty
  right : Ty

/-- Equality between constraints.  The constraint classes are named
tuples, so `==` is tuple equality on `(left, right)` and ignores the
class tag. -/
def cEq (c1 c2 : Constraint) : Bool :=
  pyEq c1.left c2.left && pyEq c1.right c2.right

/-- Membership of a constraint in a constraint set. -/
def cMem (c : Constraint) (l : List Constraint) : Bool :=
  l.any (fun c2 => cEq c2 c)

/-- The mutable state of a `ConstraintStore` (plus the global
`Variable.next_identity` counter, which the model keeps in the store). -/
structure Store where
  constraints : List Constraint
  completed_constraints : List Constraint
  varRegistry : List Nat   -- the `variables` set (the word is reserved in Lean)
  next_identity : Nat

/-- The part of the `vm` that the modelled code reads: `vm.type_map`,
keyed by the id of a value's Python class. -/
structure VM where
  type_map : List (Nat × Ty)

def lookupTypeMap : List (Nat × Ty) → Nat → Option Ty
  | [], _ => none
  | (k, t) :: rest, c => if k = c then some t else lookupTypeMap rest c

/-- `ConstraintStore.new_variable`: allocate a fresh `Variable` and
register it. -/
def newVariable (st : Store) : Ty × Store :=
  let id := st.next_identity
  (.var id,
   { st with next_identity := id + 1, varRegistry := st.varRegistry ++ [id] })

/-- `ConstraintStore.constrain_subtype(a, b)`: record `a <: b` unless
`a == b` or the constraint is already present. -/
def constrainSubtype (st : Store) (a b : Ty) : Store :=
  let c : Constraint := ⟨.subtype, a, b⟩
  if !pyEq a b && !cMem c st.constraints then
    { st with constraints := st.constraints ++ [c] }
  else st

/-- `ConstraintStore.constrain_supertype(a, b) = constrain_subtype(b, a)`. -/
def constrainSupertype (st : Store) (a b : Ty) : Store :=
  constrainSubtype st b a

/-- `ConstraintStore.constrain_equal(a, b)`. -/
def constrainEqual (st : Store) (a b : Ty) : Store :=
  let c : Constraint := ⟨.equality, a, b⟩
  if !pyEq a b && !cMem c st.constraints then
    { st with constraints := st.constraints ++ [c] }
  else st

/-- `ConstraintStore._complete_constraint`: move a constraint from the
active set to the completed set (when it is active). -/
def completeConstraint (st : Store) (c : Constraint) : Store :=
  if cMem c st.constraints then
    { st with
      constraints := st.constraints.filter (fun c2 => !cEq c2 c),
      completed_constraints :=
        if cMem c st.completed_constraints then st.completed_constraints
        else st.completed_constraints ++ [c] }
  else st

/-- Comparison of an argument of `ConstraintStore.issubtypeof` (possibly
`None`) with a stored constraint side; `None == someType` is `False`. -/
def optTyEq (o : Option Ty) (t : Ty) : Bool :=
  match o with
  | some u => pyEq u t
  | none => false

/-- `ConstraintStore.issubtypeof(type1, type2)`: three-valued subtype
check.  `type1`/`type2` may be `None` (the `super2=None` default of
`new_variable_subtype`), in which case calling `contains_variable`
raises `AttributeError`.  Inner `some b` is a real boolean answer,
inner `none` is Python's `None` ("unknown"). -/
def storeIssub (fu : Nat) (st : Store) (o1 o2 : Option Ty) :
    PyResult (Option Bool) :=
  let known : PyResult (Option Bool) :=
    if st.constraints.any (fun c => optTyEq o1 c.left && optTyEq o2 c.right)
    then .ok (some true) else .ok none
  match o1 with
  | none => .exn .attributeError
  | some t1 =>
    if containsVar t1 then known
    else
      match o2 with
      | none => .exn .attributeError
      | some t2 =>
        if containsVar t2 then known
        else
          match issubF fu t1 t2 with
          | .ok r => .ok (some r)
          | .exn e => .exn e
          | .fuelOut => .fuelOut

/-- `ConstraintStore.new_variable_supertype(sub1, sub2)`: return one of
the two types when the store can already order them, otherwise allocate
a fresh variable above both. -/
def nvSupF (fu : Nat) (sub1 sub2 : Ty) (st : Store) :
    PyResult (Ty × Store) :=
  match storeIssub fu st (some sub2) (some sub1) with
  | .exn e => .exn e
  | .fuelOut => .fuelOut
  | .ok r1 =>
    if r1 = some true then .ok (sub1, st)
    else
      match storeIssub fu st (some sub1) (some sub2) with
      | .exn e => .exn e
      | .fuelOut => .fuelOut
      | .ok r2 =>
        if r2 = some true then .ok (sub2, st)
        else
          let (v, st1) := newVariable st
          let st2 := constrainSupertype st1 v sub1
          let st3 := constrainSupertype st2 v sub2
          .ok (v, st3)

/-- `ConstraintStore.new_variable_subtype(super1, super2=None)`: dual to
`new_variable_supertype`.  `super2` keeps its `None` default; the two
`.exn .attributeError` arms inside are unreachable (reaching them needs
a non-exceptional `storeIssub` on a `none` argument, which does not
exist) and merely keep the definition total. -/
def nvSubF (fu : Nat) (super1 : Ty) (super2 : Option Ty) (st : Store) :
    PyResult (Ty × Store) :=
  match storeIssub fu st (some super1) super2 with
  | .exn e => .exn e
  | .fuelOut => .fuelOut
  | .ok r1 =>
    if r1 = some true then .ok (super1, st)
    else
      match storeIssub fu st super2 (some super1) with
      | .exn e => .exn e
      | .fuelOut => .fuelOut
      | .ok r2 =>
        if r2 = some true then
          match super2 with
          | some t2 => .ok (t2, st)
          | none => .exn .attributeError
        else
          let (v, st1) := newVariable st
          let st2 := constrainSubtype st1 v super1
          match super2 with
          | some t2 => .ok (v, constrainSubtype st2 v t2)
          | none => .exn .attributeError

/-- `Class.__eq__` (name and member value lists; `self is other` implies
it). -/
def clsEqPy (c1 c2 : ClassRec) : Bool :=
  (c1.cname = c2.cname) &&
    memberValsEqChain c1.cmembers (Members.toPairs c2.cmembers) &&
    memberValsEqChain c1.imembers (Members.toPairs c2.imembers)

/-- Python list indexing, including negative indices; `none` is an
`IndexError`. -/
def pyIdx (l : List α) (i : Int) : Option α :=
  if 0 ≤ i then l.get? i.toNat
  else if i.natAbs ≤ l.length then l.get? (l.length - i.natAbs)
  else none

/-- One inner row of the `longest_common_subsequence` table (cells for
`j = 1 …`), carrying the previous row and the cell to the left. -/
def lcsCells (prev : List Nat) (v1 : ClassRec) :
    List ClassRec → Nat → Nat → List Nat
  | [], _, _ => []
  | v2 :: rest, j, left =>
    let cell :=
      if clsEqPy v1 v2 then prev.getD (j - 1) 0 + 1
      else max (prev.getD j 0) left
    cell :: lcsCells prev v1 rest (j + 1) cell

/-- The filled `(len1+1) × (len2+1)` table of
`longest_common_subsequence`. -/
def lcsTable (seq1 seq2 : List ClassRec) : List (List Nat) :=
  let row0 := List.replicate (seq2.length + 1) 0
  seq1.foldl
    (fun rows v1 =>
      rows ++ [0 :: lcsCells (rows.getLastD row0) v1 seq2 1 0])
    [row0]

/-- The read-out loop of `longest_common_subsequence`; the appends and
final `reversed` of the source are mirrored literally.  Negative indices
follow Python semantics via `pyIdx` (the `table[i][-1]`/`table[-1][j]`
reads that happen when `i` or `j` is `0` hit the last row/column). -/
def lcsRead (table : List (List Nat)) (seq1 seq2 : List ClassRec) :
    Nat → Int → Int →
    List ClassRec → List ClassRec → List ClassRec →
    Option (List ClassRec × List ClassRec × List ClassRec)
  | 0, _, _, _, _, _ => none
  | n + 1, i, j, lcs, lost1, lost2 =>
    if 0 ≤ i ∧ 0 ≤ j then
      match pyIdx seq1 i, pyIdx seq2 j with
      | some x, some y =>
        if clsEqPy x y then
          lcsRead table seq1 seq2 n (i - 1) (j - 1) (lcs ++ [x]) lost1 lost2
        else
          match pyIdx table i, pyIdx table (i - 1) with
          | some rowi, some rowim1 =>
            match pyIdx rowi (j - 1), pyIdx rowim1 j with
            | some a, some b =>
              if b < a then
                lcsRead table seq1 seq2 n i (j - 1) lcs lost1 (lost2 ++ [y])
              else
                lcsRead table seq1 seq2 n (i - 1) j lcs (lost1 ++ [x]) lost2
            | _, _ => none
          | _, _ => none
      | _, _ => none
    else some (lcs.reverse, lost1.reverse, lost2.reverse)

/-- `longest_common_subsequence(seq1, seq2)`; `none` models the
(unreachable) `IndexError` paths of the read-out. -/
def longestCommonSubsequence (seq1 seq2 : List ClassRec) :
    Option (List ClassRec × List ClassRec × List ClassRec) :=
  lcsRead (lcsTable seq1 seq2) seq1 seq2 (seq1.length + seq2.length + 2)
    ((seq1.length : Int) - 1) ((seq2.length : Int) - 1) [] [] []

/-- Membership of a class in a list of classes under `Class.__eq__`. -/
def clsMem (c : ClassRec) (l : List ClassRec) : Bool :=
  l.any (fun y => clsEqPy y c)

/-- The candidate search of `merge_mros`: the first head among the
non-empty sequences that appears in no other sequence's tail. -/
def mroFindCand (nonempty : List (List ClassRec)) :
    List (List ClassRec) → Option ClassRec
  | [] => none
  | s :: rest =>
    match s with
    | [] => mroFindCand nonempty rest
    | cand :: _ =>
      if nonempty.any (fun s2 => clsMem cand (s2.drop 1)) then
        mroFindCand nonempty rest
      else some cand

/-- The loop of `merge_mros`: repeatedly pick a head that is in no tail,
append it to the result and delete it from every sequence head where it
appears; raise `TypeError` ("Illegal inheritance") when no candidate
exists. -/
def mergeMros : Nat → List (List ClassRec) → List ClassRec →
    PyResult (List ClassRec)
  | 0, _, _ => .fuelOut
  | n + 1, seqs, res =>
    let nonempty := seqs.filter (fun s => !s.isEmpty)
    if nonempty.isEmpty then .ok res
    else
      match mroFindCand nonempty nonempty with
      | none => .exn .typeError
      | some cand =>
        let seqs2 := seqs.map (fun s =>
          match s with
          | [] => []
          | h :: t => if clsEqPy h cand then t else s)
        mergeMros n seqs2 (res ++ [cand])

/-- `merge_mros(self.mro, other.mro)`, with fuel large enough for its
loop (each round removes at least one element). -/
def mergeMrosRun (s1 s2 : List ClassRec) : PyResult (List ClassRec) :=
  mergeMros (s1.length + s2.length + 1) [s1, s2] []

/-- Zip two argument lists with a lattice operation, threading the
store (the argument tuples of `Function.join`/`Function.meet`). -/
def zipOpAux (op : Ty → Ty → Store → PyResult (Ty × Store)) :
    List Ty → List Ty → Store → PyResult (List Ty × Store)
  | [], _, st => .ok ([], st)
  | _ :: _, [], st => .ok ([], st)
  | x :: xs, y :: ys, st =>
    match op x y st with
    | .ok (t, st2) =>
      match zipOpAux op xs ys st2 with
      | .ok (ts, st3) => .ok (t :: ts, st3)
      | .exn e => .exn e
      | .fuelOut => .fuelOut
    | .exn e => .exn e
    | .fuelOut => .fuelOut

/-- `join_seq`/`meet_seq` folding: apply the operation to an accumulator
and every element of the list. -/
def seqFoldAux (op : Ty → Ty → Store → PyResult (Ty × Store)) :
    Ty → List Ty → Store → PyResult (Ty × Store)
  | res, [], st => .ok (res, st)
  | res, t :: rest, st =>
    match op res t st with
    | .ok (r2, st2) => seqFoldAux op r2 rest st2
    | .exn e => .exn e
    | .fuelOut => .fuelOut

/-- `dict_join(d1, d2)`: join the values of the keys shared by both
dicts, iterating `d1`. -/
def dictJoinAux (op : Ty → Ty → Store → PyResult (Ty × Store))
    (d2 : Members) : Members → Store → PyResult (Members × Store)
  | .nil, st => .ok (.nil, st)
  | .cons k v rest, st =>
    match dictGet d2 k with
    | none => dictJoinAux op d2 rest st
    | some u =>
      match op v u st with
      | .ok (t, st2) =>
        match dictJoinAux op d2 rest st2 with
        | .ok (ms, st3) => .ok (.cons k t ms, st3)
        | .exn e => .exn e
        | .fuelOut => .fuelOut
      | .exn e => .exn e
      | .fuelOut => .fuelOut

/-- String list de-duplication, modelling a set of dict keys. -/
def dedupStr : List String → List String → List String
  | acc, [] => acc
  | acc, k :: rest =>
    if acc.contains k then dedupStr acc rest else dedupStr (acc ++ [k]) rest

/-- `dict_meet(d1, d2)`: for every name in either dict, `meet_seq` of
the values holding that name. -/
def dictMeetAux (mt : Ty → Ty → Store → PyResult (Ty × Store))
    (d1 d2 : Members) : List String → Store → PyResult (Members × Store)
  | [], st => .ok (.nil, st)
  | n :: rest, st =>
    let types :=
      (match dictGet d1 n with | some t => [t] | none => []) ++
      (match dictGet d2 n with | some t => [t] | none => [])
    match seqFoldAux mt .obj types st with
    | .ok (t, st2) =>
      match dictMeetAux mt d1 d2 rest st2 with
      | .ok (ms, st3) => .ok (.cons n t ms, st3)
      | .exn e => .exn e
      | .fuelOut => .fuelOut
    | .exn e => .exn e
    | .fuelOut => .fuelOut

/-- De-duplication of constant value lists (frozenset of values). -/
def pyValDedup : List PyVal → List PyVal → List PyVal
  | acc, [] => acc
  | acc, v :: rest =>
    if acc.contains v then pyValDedup acc rest
    else pyValDedup (acc ++ [v]) rest

/-- `ConstantType(values, vm, with_type)`: the constructor computes
`value_type = join_seq(*([with_type or Nothing] + [vm.type_map[v.__class__]
for v in values if v.__class__ in vm.type_map]))` and stores the value
set. -/
def mkConstantAux (joinop : Ty → Ty → Store → PyResult (Ty × Store))
    (vm : VM) (values : List PyVal) (withType : Option Ty) (st : Store) :
    PyResult (Ty × Store) :=
  let seed := withType.getD Ty.nothing
  let mapped := values.filterMap (fun v => lookupTypeMap vm.type_map v.cls)
  match seqFoldAux joinop .nothing (seed :: mapped) st with
  | .ok (vt, st2) => .ok (.const (pyValDedup [] values) vt, st2)
  | .exn e => .exn e
  | .fuelOut => .fuelOut

/-- The `join` (mode `true`) and `meet` (mode `false`) methods of every
variant, fused into one fueled function because the two sets of methods
are mutually recursive (`Function.join` meets its argument types).  The
local `fb` is the shared base-class `Type.join`/`Type.meet` fallback.
The source's `elif` chains test disjoint `isinstance` cases, so the
order of the `match` arms below is equivalent to each method's order. -/
def latOp : Nat → Bool → VM → Ty → Ty → Store → PyResult (Ty × Store)
  | 0, _, _, _, _, _ => .fuelOut
  | fu + 1, isJoin, vm, a, b, st =>
    let fb : Ty → Ty → Store → PyResult (Ty × Store) := fun a b st =>
      match b with
      | .obj => latOp fu isJoin vm .obj a st
      | .nothing => latOp fu isJoin vm .nothing a st
      | .dynamic => latOp fu isJoin vm .dynamic a st
      | .const _ vt => latOp fu isJoin vm a vt st
      | .var _ =>
        if isJoin then nvSupF fu b a st else nvSubF fu b (some a) st
      | _ => .exn .typeError
    match a with
    | .obj => if isJoin then .ok (a, st) else .ok (b, st)
    | .nothing => if isJoin then .ok (b, st) else .ok (a, st)
    | .dynamic => .ok (a, st)
    | .union xs =>
      match b with
      | .union ys =>
        if isJoin then
          .ok (mkUnion (TyList.toList xs ++ TyList.toList ys), st)
        else
          .ok (mkUnion
            ((TyList.toList xs).filter (fun t => pyMemL t (TyList.toList ys))),
            st)
      | .func _ _ _ | .inst _ _ _ =>
        if isJoin then .ok (mkUnion (TyList.toList xs ++ [b]), st)
        else
          let inter := (TyList.toList xs).filter (fun t => pyEq t b)
          if !inter.isEmpty then .ok (mkUnion inter, st)
          else nvSubF fu b (some a) st
      | _ => fb a b st
    | .func args ret _ =>
      match b with
      | .func args2 ret2 _ =>
        if (TyList.toList args).length = (TyList.toList args2).length then
          match zipOpAux (fun x y st => latOp fu (!isJoin) vm x y st)
              (TyList.toList args2) (TyList.toList args) st with
          | .ok (argsL, st2) =>
            match latOp fu isJoin vm ret ret2 st2 with
            | .ok (r, st3) => .ok (.func (TyList.ofList argsL) r none, st3)
            | .exn e => .exn e
            | .fuelOut => .fuelOut
          | .exn e => .exn e
          | .fuelOut => .fuelOut
        else .ok ((if isJoin then .obj else .nothing), st)
      | .union _ => latOp fu isJoin vm b a st
      | _ => fb a b st
    | .inst mro mems _ =>
      match b with
      | .inst mro2 mems2 _ =>
        if isJoin then
          match longestCommonSubsequence (ClsList.toRecs mro)
              (ClsList.toRecs mro2) with
          | none => .exn .indexError
          | some (mroL, selfIgn, otherIgn) =>
            match dictJoinAux (fun x y st => latOp fu true vm x y st)
                (mroToStructure otherIgn mems2)
                (mroToStructure selfIgn mems) st with
            | .ok (ms, st2) => .ok (.inst (ClsList.ofRecs mroL) ms none, st2)
            | .exn e => .exn e
            | .fuelOut => .fuelOut
        else
          match mergeMrosRun (ClsList.toRecs mro) (ClsList.toRecs mro2) with
          | .ok mroL =>
            match dictMeetAux (fun x y st => latOp fu false vm x y st)
                mems mems2 (dedupStr [] (dictKeys mems ++ dictKeys mems2))
                st with
            | .ok (ms, st2) => .ok (.inst (ClsList.ofRecs mroL) ms none, st2)
            | .exn e => .exn e
            | .fuelOut => .fuelOut
          | .exn e => .exn e
          | .fuelOut => .fuelOut
      | .union _ => latOp fu isJoin vm b a st
      | .func _ _ _ => .ok ((if isJoin then .obj else .nothing), st)
      | _ => fb a b st
    | .const vs vt =>
      match b with
      | .const vs2 vt2 =>
        if isJoin then
          mkConstantAux (fun x y st => latOp fu true vm x y st) vm
            (pyValDedup [] (vs ++ vs2)) none st
        else
          let inter := vs.filter (vs2.contains ·)
          if !inter.isEmpty then
            mkConstantAux (fun x y st => latOp fu true vm x y st) vm inter
              none st
          else latOp fu false vm vt vt2 st
      | _ => latOp fu isJoin vm vt b st
    | .var _ =>
      if isJoin then nvSupF fu b a st else nvSubF fu b (some a) st

/-- `Type.join` and its overrides (mode `true` of `latOp`). -/
def tyJoin (fu : Nat) (vm : VM) (a b : Ty) (st : Store) :
    PyResult (Ty × Store) :=
  latOp fu true vm a b st

/-- `Type.meet` and its overrides (mode `false` of `latOp`). -/
def tyMeet (fu : Nat) (vm : VM) (a b : Ty) (st : Store) :
    PyResult (Ty × Store) :=
  latOp fu false vm a b st

/-- `isinstance(t, Variable)`. -/
def Ty.isVar : Ty → Bool
  | .var _ => true
  | _ => false

/-- `isinstance(t, Object)`. -/
def Ty.isObj : Ty → Bool
  | .obj => true
  | _ => false

/-- `isinstance(t, Nothing)`. -/
def Ty.isNothing : Ty → Bool
  | .nothing => true
  | _ => false

/-- `isinstance(t, Union)`. -/
def Ty.isUnion : Ty → Bool
  | .union _ => true
  | _ => false

/-- Remove a constraint from the active set (`set.discard`). -/
def discardConstraint (st : Store) (c : Constraint) : Store :=
  { st with constraints := st.constraints.filter (fun c2 => !cEq c2 c) }

/-- Set equality of two constraint sets (mutual inclusion). -/
def cSetEq (l1 l2 : List Constraint) : Bool :=
  l1.all (fun c => cMem c l2) && l2.all (fun c => cMem c l1)

/-- The inner loop of `ConstraintStore.meet_super_bounds` for one
variable: meet every concrete upper bound of the variable into the
accumulator, completing each bound constraint. -/
def msbInner (fu : Nat) (vm : VM) (varId : Nat) :
    List Constraint → Ty → Store → PyResult (Ty × Store)
  | [], sb, st => .ok (sb, st)
  | c :: rest, sb, st =>
    if pyEq c.left (.var varId) && c.kind == CKind.subtype &&
        !c.right.isVar then
      match tyMeet fu vm sb c.right st with
      | .ok (sb2, st2) => msbInner fu vm varId rest sb2 (completeConstraint st2 c)
      | .exn e => .exn e
      | .fuelOut => .fuelOut
    else msbInner fu vm varId rest sb st

/-- The outer loop of `meet_super_bounds` over the variable registry. -/
def msbOuter (fu : Nat) (vm : VM) (origC : List Constraint) :
    List Nat → Store → PyResult Store
  | [], st => .ok st
  | v :: vs, st =>
    match msbInner fu vm v origC .obj st with
    | .ok (sb, st2) =>
      msbOuter fu vm origC vs
        (if sb.isObj then st2 else constrainSubtype st2 (.var v) sb)
    | .exn e => .exn e
    | .fuelOut => .fuelOut

/-- `ConstraintStore.meet_super_bounds`: for every variable, meet its
concrete upper bounds into a single bound, retire the replaced
constraints into the completed set, and constrain the variable by the
meet; report whether the constraint set changed. -/
def meetSuperBounds (fu : Nat) (vm : VM) (st : Store) :
    PyResult (Bool × Store) :=
  let origC := st.constraints
  match msbOuter fu vm origC st.varRegistry st with
  | .ok st2 => .ok (!cSetEq origC st2.constraints, st2)
  | .exn e => .exn e
  | .fuelOut => .fuelOut

/-- The inner loop of `ConstraintStore.join_sub_bounds` for one
variable: join every concrete lower bound of the variable into the
accumulator, discarding (not completing) each bound constraint. -/
def jsbInner (fu : Nat) (vm : VM) (varId : Nat) :
    List Constraint → Ty → Store → PyResult (Ty × Store)
  | [], sb, st => .ok (sb, st)
  | c :: rest, sb, st =>
    if pyEq c.right (.var varId) && c.kind == CKind.subtype &&
        !c.left.isVar then
      match tyJoin fu vm sb c.left st with
      | .ok (sb2, st2) => jsbInner fu vm varId rest sb2 (discardConstraint st2 c)
      | .exn e => .exn e
      | .fuelOut => .fuelOut
    else jsbInner fu vm varId rest sb st

/-- The outer loop of `join_sub_bounds` over the variable registry. -/
def jsbOuter (fu : Nat) (vm : VM) (origC : List Constraint) :
    List Nat → Store → PyResult Store
  | [], st => .ok st
  | v :: vs, st =>
    match jsbInner fu vm v origC .nothing st with
    | .ok (sb, st2) =>
      jsbOuter fu vm origC vs
        (if sb.isNothing then st2 else constrainSupertype st2 (.var v) sb)
    | .exn e => .exn e
    | .fuelOut => .fuelOut

/-- `ConstraintStore.join_sub_bounds`: dual of `meet_super_bounds`,
except that the replaced lower-bound constraints are removed with
`set.discard` instead of `_complete_constraint`. -/
def joinSubBounds (fu : Nat) (vm : VM) (st : Store) :
    PyResult (Bool × Store) :=
  let origC := st.constraints
  match jsbOuter fu vm origC st.varRegistry st with
  | .ok st2 => .ok (!cSetEq origC st2.constraints, st2)
  | .exn e => .exn e
  | .fuelOut => .fuelOut

/-- A variable of the SAT problem: an `Inequality` named tuple or some
other proposition introduced by the encoder. -/
inductive SatVar where
  | ineq (subtype supertype : Ty) : SatVar
  | aux (id : Nat) : SatVar

/-- The bounds mapping built by `SatEncoder.Solve`, keyed by variable
identity (`Variable` hashes and compares by identity). -/
abbrev ResMap := List (Nat × (Ty × Ty))

def resLookup : ResMap → Nat → Option (Ty × Ty)
  | [], _ => none
  | (k, v) :: rest, i => if k = i then some v else resLookup rest i

/-- `dict.setdefault(k, d)`: return the current binding, inserting the
default when absent. -/
def resSetdefault (m : ResMap) (k : Nat) (d : Ty × Ty) :
    (Ty × Ty) × ResMap :=
  match resLookup m k with
  | some v => (v, m)
  | none => (d, m ++ [(k, d)])

/-- `results[k] = v`: replace the first binding of `k` (append when
absent). -/
def resAssign : ResMap → Nat → (Ty × Ty) → ResMap
  | [], k, v => [(k, v)]
  | (k2, v2) :: rest, k, v =>
    if k2 = k then (k, v) :: rest else (k2, v2) :: resAssign rest k v

/-- One iteration of the decoding loop of `SatEncoder.Solve`: for a true
`Inequality`, a `Variable` on the subtype side gets its upper bound met
with a concrete supertype, and a `Variable` on the supertype side gets
its lower bound joined with a concrete subtype; bounds start at
`(Nothing, Object)` via `setdefault`. -/
def solveStep (fu : Nat) (vm : VM) (acc : ResMap × Store)
    (entry : SatVar × Option Bool) : PyResult (ResMap × Store) :=
  match entry with
  | (.ineq sub sup, v) =>
    if v = some true then
      match
        (match sub with
         | .var i =>
           let p := resSetdefault acc.1 i (.nothing, .obj)
           if !containsVar sup then
             match tyMeet fu vm p.1.2 sup acc.2 with
             | .ok (u2, st2) => .ok (resAssign p.2 i (p.1.1, u2), st2)
             | .exn e => .exn e
             | .fuelOut => .fuelOut
           else .ok (p.2, acc.2)
         | _ => .ok acc : PyResult (ResMap × Store)) with
      | .ok acc2 =>
        (match sup with
         | .var i =>
           let p := resSetdefault acc2.1 i (.nothing, .obj)
           if !containsVar sub then
             match tyJoin fu vm p.1.1 sub acc2.2 with
             | .ok (l2, st2) => .ok (resAssign p.2 i (l2, p.1.2), st2)
             | .exn e => .exn e
             | .fuelOut => .fuelOut
           else .ok (p.2, acc2.2)
         | _ => .ok acc2)
      | .exn e => .exn e
      | .fuelOut => .fuelOut
    else .ok acc
  | _ => .ok acc

/-- The fold of `solveStep` over the solver's assignment. -/
def satSolveFold (fu : Nat) (vm : VM) :
    List (SatVar × Option Bool) → ResMap × Store → PyResult (ResMap × Store)
  | [], acc => .ok acc
  | e :: rest, acc =>
    match solveStep fu vm acc e with
    | .ok acc2 => satSolveFold fu vm rest acc2
    | .exn e => .exn e
    | .fuelOut => .fuelOut

/-- `SatEncoder.Solve` decoding: fold the assignment starting from the
empty mapping, returning the mapping `V → (lower, upper)`. -/
def satSolveDecode (fu : Nat) (vm : VM)
    (entries : List (SatVar × Option Bool)) (st : Store) :
    PyResult (ResMap × Store) :=
  satSolveFold fu vm entries ([], st)

/-- Model of the opaque CPython string hash; only which concrete strings
collide matters, and this model keeps distinct short names distinct. -/
def strHash (s : String) : Nat :=
  s.data.foldl (fun h c => h * 31 + c.toNat) 7

/-- Model of `hash(name)` for an optional name (`hash(None)` is some
fixed number). -/
def optStrHash : Option String → Nat
  | none => 1008
  | some s => strHash s

mutual
/-- Python `hash()` on types, following each `__hash__` in the source:
`Object`/`Nothing`/`Dynamic` hash their class; `Function` hashes
`hash(argument_types) ^ hash(return_type)`; `Instance` hashes
`hash(tuple(other_members.items())) ^ hash(name)`; `Union` hashes its
member frozenset (an order-insensitive combination); `ConstantType`
hashes its value type; `Variable` hashes its identity.  The primitive
combiners model the opaque CPython ones. -/
def pyHash : Ty → Nat
  | .obj => 2001
  | .nothing => 2002
  | .dynamic => 2003
  | .func args ret _ => Nat.xor (tupleHashTy args) (pyHash ret)
  | .inst _ mems nm => Nat.xor (itemsHash mems) (optStrHash nm)
  | .union xs => fsetHash xs
  | .const _ vt => pyHash vt
  | .var i => i

/-- Model of `hash` on a tuple of types. -/
def tupleHashTy : TyList → Nat
  | .nil => 3001
  | .cons h t => tupleHashTy t * 31 + pyHash h

/-- Model of `hash(tuple(d.items()))`. -/
def itemsHash : Members → Nat
  | .nil => 3002
  | .cons k v t => itemsHash t * 31 + (strHash k * 31 + pyHash v)

/-- Model of `hash` on a frozenset of types (order-insensitive). -/
def fsetHash : TyList → Nat
  | .nil => 3003
  | .cons h t => Nat.xor (pyHash h) (fsetHash t)
end

/-- `isinstance(t, ConstantType)`. -/
def Ty.isConst : Ty → Bool
  | .const _ _ => true
  | _ => false

mutual
/-- `ContainsVisitor` restricted to variables whose identity lies in
`dom`: does such a variable occur at a `visit` position?  Same traversal
as `containsVar` (no descent into MROs or constants). -/
def hasDomVar (dom : List Nat) : Ty → Bool
  | .var i => decide (i ∈ dom)
  | .union xs => tyListHasDomVar dom xs
  | .func args ret _ => tyListHasDomVar dom args || hasDomVar dom ret
  | .inst _ mems _ => membersHasDomVar dom mems
  | .obj => false
  | .nothing => false
  | .dynamic => false
  | .const _ _ => false

def tyListHasDomVar (dom : List Nat) : TyList → Bool
  | .nil => false
  | .cons h t => hasDomVar dom h || tyListHasDomVar dom t

def membersHasDomVar (dom : List Nat) : Members → Bool
  | .nil => false
  | .cons _ v t => hasDomVar dom v || membersHasDomVar dom t
end

theorem toList_ofList (l : List Ty) : (TyList.ofList l).toList = l := by
  induction l with
  | nil => rfl
  | cons h t ih => simp [TyList.ofList, TyList.toList, ih]

theorem tySize_pos (t : Ty) : 1 ≤ tySize t := by
  cases t <;> simp [tySize] <;> omega

theorem tySize_mem_le : ∀ {t : Ty} {l : TyList}, t ∈ l.toList →
    tySize t ≤ tyListSize l
  | t, .nil, h => by simp [TyList.toList] at h
  | t, .cons h2 t2, h => by
    simp only [TyList.toList, List.mem_cons] at h
    rcases h with h | h
    · subst h; simp only [tyListSize]; omega
    · have := tySize_mem_le h; simp only [tyListSize]; omega

theorem membersSize_mem_le : ∀ {k : String} {v : Ty} {m : Members},
    (k, v) ∈ m.toPairs → tySize v ≤ membersSize m
  | k, v, .nil, h => by simp [Members.toPairs] at h
  | k, v, .cons k2 v2 t, h => by
    simp only [Members.toPairs, List.mem_cons, Prod.mk.injEq] at h
    rcases h with ⟨hk, hv⟩ | h
    · subst hv; simp only [membersSize]; omega
    · have := membersSize_mem_le h; simp only [membersSize]; omega

theorem dictGet_mem : ∀ {m : Members} {k : String} {v : Ty},
    dictGet m k = some v → (k, v) ∈ m.toPairs
  | .nil, k, v, h => by simp [dictGet] at h
  | .cons k2 v2 t, k, v, h => by
    simp only [dictGet] at h
    by_cases hk : k2 = k
    · simp [hk] at h; subst hk h; simp [Members.toPairs]
    · simp [hk] at h
      simp [Members.toPairs]
      right
      exact dictGet_mem h

theorem toPairs_append : ∀ (d1 d2 : Members),
    (Members.append d1 d2).toPairs = d1.toPairs ++ d2.toPairs
  | .nil, d2 => rfl
  | .cons k v t, d2 => by
    simp [Members.append, Members.toPairs, toPairs_append t d2]

theorem mem_dictOverrideVals : ∀ {d2 d : Members} {p : String × Ty},
    p ∈ (dictOverrideVals d2 d).toPairs → p ∈ d.toPairs ∨ p ∈ d2.toPairs
  | d2, .nil, p, h => by simp [dictOverrideVals, Members.toPairs] at h
  | d2, .cons k v t, p, h => by
    simp only [dictOverrideVals] at h
    cases hg : dictGet d2 k with
    | some v2 =>
      rw [hg] at h
      simp only [Members.toPairs, List.mem_cons] at h
      rcases h with h | h
      · subst h; right; exact dictGet_mem hg
      · rcases mem_dictOverrideVals h with h | h
        · left; simp [Members.toPairs, h]
        · right; exact h
    | none =>
      rw [hg] at h
      simp only [Members.toPairs, List.mem_cons] at h
      rcases h with h | h
      · left; simp [Members.toPairs, h]
      · rcases mem_dictOverrideVals h with h | h
        · left; simp [Members.toPairs, h]
        · right; exact h

theorem mem_dictNewEntries : ∀ {d1 d : Members} {p : String × Ty},
    p ∈ (dictNewEntries d1 d).toPairs → p ∈ d.toPairs
  | d1, .nil, p, h => by simp [dictNewEntries, Members.toPairs] at h
  | d1, .cons k v t, p, h => by
    simp only [dictNewEntries] at h
    by_cases hk : hasKey d1 k = true
    · simp only [hk, if_true] at h
      simp [Members.toPairs, mem_dictNewEntries h]
    · simp only [hk] at h
      simp only [if_false, Bool.false_eq_true, Members.toPairs,
        List.mem_cons] at h
      rcases h with h | h
      · simp [Members.toPairs, h]
      · simp [Members.toPairs, mem_dictNewEntries h]

theorem mem_dictUpdate {d1 d2 : Members} {p : String × Ty}
    (h : p ∈ (dictUpdate d1 d2).toPairs) :
    p ∈ d1.toPairs ∨ p ∈ d2.toPairs := by
  unfold dictUpdate at h
  rw [toPairs_append] at h
  rcases List.mem_append.mp h with h | h
  · exact mem_dictOverrideVals h
  · right; exact mem_dictNewEntries h

theorem mem_structFold {p : String × Ty} :
    ∀ (recs : List ClassRec) (acc : Members),
    p ∈ ((recs.foldl
        (fun acc c => dictUpdate (dictUpdate acc c.cmembers) c.imembers)
        acc)).toPairs →
    p ∈ acc.toPairs ∨
      ∃ c ∈ recs, p ∈ c.cmembers.toPairs ∨ p ∈ c.imembers.toPairs := by
  intro recs
  induction recs with
  | nil => intro acc h; exact Or.inl h
  | cons c cs ih =>
    intro acc h
    simp only [List.foldl_cons] at h
    rcases ih _ h with h2 | h2
    · rcases mem_dictUpdate h2 with h3 | h3
      · rcases mem_dictUpdate h3 with h4 | h4
        · exact Or.inl h4
        · exact Or.inr ⟨c, by simp, Or.inl h4⟩
      · exact Or.inr ⟨c, by simp, Or.inr h3⟩
    · obtain ⟨c2, hc2, hp⟩ := h2
      exact Or.inr ⟨c2, by simp [hc2], hp⟩

theorem mem_mroToStructure {recs : List ClassRec} {over : Members}
    {p : String × Ty} (h : p ∈ (mroToStructure recs over).toPairs) :
    (∃ c ∈ recs, p ∈ c.cmembers.toPairs ∨ p ∈ c.imembers.toPairs) ∨
      p ∈ over.toPairs := by
  unfold mroToStructure at h
  rcases mem_dictUpdate h with h | h
  · rcases mem_structFold recs.reverse Members.nil h with h2 | h2
    · simp [Members.toPairs] at h2
    · obtain ⟨c, hc, hp⟩ := h2
      exact Or.inl ⟨c, List.mem_reverse.mp hc, hp⟩
  · right; exact h

theorem clsSize_mem_le : ∀ {c : ClassRec} {cl : ClsList}, c ∈ cl.toRecs →
    membersSize c.cmembers + membersSize c.imembers ≤ clsListSize cl
  | c, .nil, h => by simp [ClsList.toRecs] at h
  | c, .cons n cm im t, h => by
    simp only [ClsList.toRecs, List.mem_cons] at h
    rcases h with h | h
    · subst h; simp only [clsListSize]; omega
    · have := clsSize_mem_le h; simp only [clsListSize]; omega

theorem structVal_size_le {mro2 : ClsList} {mems2 : Members} {k : String}
    {v : Ty} (h : (k, v) ∈ (getStructure mro2 mems2).toPairs) :
    tySize v ≤ clsListSize mro2 + membersSize mems2 := by
  rcases mem_mroToStructure h with ⟨c, hc, hp⟩ | hp
  · have hcs := clsSize_mem_le hc
    rcases hp with hp | hp
    · have := membersSize_mem_le hp; omega
    · have := membersSize_mem_le hp; omega
  · have := membersSize_mem_le hp; omega

/-- The values stored in a member dict. -/
def memVals (m : Members) : List Ty := m.toPairs.map Prod.snd

/-- Pairwise distinctness of a list of types under `==` (no later element
equals an earlier one), the well-formedness a Python set guarantees. -/
def distinctList (l : List Ty) : Prop :=
  l.Pairwise (fun a b => pyEq b a = false)

/-- Types representable by the Python code: member dicts have no
duplicate keys and every union was built by the `Union` constructor
(members are non-union, pairwise distinct, and at least two). -/
inductive PyWf : Ty → Prop where
  | obj : PyWf .obj
  | nothing : PyWf .nothing
  | dynamic : PyWf .dynamic
  | var (i : Nat) : PyWf (.var i)
  | func {args : TyList} {ret : Ty} {nm : Option String} :
      (∀ t ∈ args.toList, PyWf t) → PyWf ret → PyWf (.func args ret nm)
  | inst {mro : ClsList} {mems : Members} {nm : Option String} :
      (∀ c ∈ mro.toRecs,
        (dictKeys c.cmembers).Nodup ∧ (dictKeys c.imembers).Nodup) →
      (∀ c ∈ mro.toRecs, ∀ v ∈ memVals c.cmembers, PyWf v) →
      (∀ c ∈ mro.toRecs, ∀ v ∈ memVals c.imembers, PyWf v) →
      (dictKeys mems).Nodup → (∀ v ∈ memVals mems, PyWf v) →
      PyWf (.inst mro mems nm)
  | union {xs : TyList} :
      (∀ t ∈ xs.toList, PyWf t) → (∀ t ∈ xs.toList, t.isUnion = false) →
      distinctList xs.toList → 2 ≤ xs.toList.length →
      PyWf (.union xs)
  | const {vs : List PyVal} {vt : Ty} : PyWf vt → PyWf (.const vs vt)

/-- Closed types: no `Variable` occurs anywhere in the term. -/
inductive VarFree : Ty → Prop where
  | obj : VarFree .obj
  | nothing : VarFree .nothing
  | dynamic : VarFree .dynamic
  | func {args : TyList} {ret : Ty} {nm : Option String} :
      (∀ t ∈ args.toList, VarFree t) → VarFree ret → VarFree (.func args ret nm)
  | inst {mro : ClsList} {mems : Members} {nm : Option String} :
      (∀ c ∈ mro.toRecs, ∀ v ∈ memVals c.cmembers, VarFree v) →
      (∀ c ∈ mro.toRecs, ∀ v ∈ memVals c.imembers, VarFree v) →
      (∀ v ∈ memVals mems, VarFree v) → VarFree (.inst mro mems nm)
  | union {xs : TyList} :
      (∀ t ∈ xs.toList, VarFree t) → VarFree (.union xs)
  | const {vs : List PyVal} {vt : Ty} : VarFree vt → VarFree (.const vs vt)

/-- Types in which neither `Object` nor `Dynamic` occurs anywhere. -/
inductive NoTopDyn : Ty → Prop where
  | nothing : NoTopDyn .nothing
  | var (i : Nat) : NoTopDyn (.var i)
  | func {args : TyList} {ret : Ty} {nm : Option String} :
      (∀ t ∈ args.toList, NoTopDyn t) → NoTopDyn ret →
      NoTopDyn (.func args ret nm)
  | inst {mro : ClsList} {mems : Members} {nm : Option String} :
      (∀ c ∈ mro.toRecs, ∀ v ∈ memVals c.cmembers, NoTopDyn v) →
      (∀ c ∈ mro.toRecs, ∀ v ∈ memVals c.imembers, NoTopDyn v) →
      (∀ v ∈ memVals mems, NoTopDyn v) → NoTopDyn (.inst mro mems nm)
  | union {xs : TyList} :
      (∀ t ∈ xs.toList, NoTopDyn t) → NoTopDyn (.union xs)
  | const {vs : List PyVal} {vt : Ty} : NoTopDyn vt → NoTopDyn (.const vs vt)

theorem hasKey_of_mem_keys : ∀ {m : Members} {k : String},
    k ∈ dictKeys m → hasKey m k = true
  | .nil, k, h => by simp [dictKeys] at h
  | .cons k2 v t, k, h => by
    simp only [dictKeys, List.mem_cons] at h
    by_cases hk : k2 = k
    · simp [hasKey, dictGet, hk]
    · rcases h with h | h
      · exact absurd h.symm hk
      · have := hasKey_of_mem_keys h
        simp only [hasKey, dictGet, hk, if_false] at *
        exact this

theorem keysIncluded_refl (m : Members) : keysIncluded (dictKeys m) m = true := by
  simp only [keysIncluded, List.all_eq_true]
  intro k hk
  exact hasKey_of_mem_keys hk

theorem mem_toPairs_key : ∀ {m : Members} {k : String} {v : Ty},
    (k, v) ∈ m.toPairs → k ∈ dictKeys m
  | .nil, k, v, h => by simp [Members.toPairs] at h
  | .cons k2 v2 t, k, v, h => by
    simp only [Members.toPairs, List.mem_cons, Prod.mk.injEq] at h
    simp only [dictKeys, List.mem_cons]
    rcases h with ⟨h1, _⟩ | h1
    · exact Or.inl h1
    · exact Or.inr (mem_toPairs_key h1)

theorem nodup_dictGet : ∀ {m : Members} {k : String} {v : Ty},
    (dictKeys m).Nodup → (k, v) ∈ m.toPairs → dictGet m k = some v
  | .nil, k, v, _, h => by simp [Members.toPairs] at h
  | .cons k2 v2 t, k, v, hnd, h => by
    simp only [Members.toPairs, List.mem_cons, Prod.mk.injEq] at h
    simp only [dictKeys, List.nodup_cons] at hnd
    rcases h with ⟨hk, hv⟩ | h
    · subst hk hv; simp [dictGet]
    · have hk2 : k2 ≠ k := fun he => hnd.1 (he ▸ mem_toPairs_key h)
      simp only [dictGet, hk2, if_false]
      exact nodup_dictGet hnd.2 h

theorem mem_memVals {m : Members} {k : String} {v : Ty}
    (h : (k, v) ∈ m.toPairs) : v ∈ memVals m :=
  List.mem_map_of_mem Prod.snd h

theorem tyListEqChain_refl : ∀ {l : TyList},
    (∀ x ∈ l.toList, pyEq x x = true) → tyListEqChain l l.toList = true
  | .nil, _ => rfl
  | .cons h t, hr => by
    simp only [TyList.toList, tyListEqChain, Bool.and_eq_true]
    exact ⟨hr h (by simp [TyList.toList]),
      tyListEqChain_refl (fun x hx => hr x (by simp [TyList.toList, hx]))⟩

theorem memberValsEqChain_refl : ∀ {m : Members},
    (∀ v ∈ memVals m, pyEq v v = true) → memberValsEqChain m m.toPairs = true
  | .nil, _ => rfl
  | .cons k v t, hr => by
    simp only [Members.toPairs, memberValsEqChain, Bool.and_eq_true]
    refine ⟨hr v (by simp [memVals, Members.toPairs]), ?_⟩
    exact memberValsEqChain_refl
      (fun x hx => hr x (by simp [memVals, Members.toPairs] at hx ⊢; right; exact hx))

theorem mroEqChain_refl : ∀ {cl : ClsList},
    (∀ c ∈ cl.toRecs, ∀ v ∈ memVals c.cmembers, pyEq v v = true) →
    (∀ c ∈ cl.toRecs, ∀ v ∈ memVals c.imembers, pyEq v v = true) →
    mroEqChain cl cl.toRecs = true
  | .nil, _, _ => rfl
  | .cons n cm im t, h1, h2 => by
    simp only [ClsList.toRecs, mroEqChain, Bool.and_eq_true, decide_eq_true_eq]
    refine ⟨⟨⟨trivial, ?_⟩, ?_⟩, ?_⟩
    · exact memberValsEqChain_refl (h1 ⟨n, cm, im⟩ (by simp [ClsList.toRecs]))
    · exact memberValsEqChain_refl (h2 ⟨n, cm, im⟩ (by simp [ClsList.toRecs]))
    · exact mroEqChain_refl
        (fun c hc => h1 c (by simp [ClsList.toRecs, hc]))
        (fun c hc => h2 c (by simp [ClsList.toRecs, hc]))

theorem dictEqChain_of : ∀ {m m0 : Members},
    (∀ p ∈ m.toPairs, dictGet m0 p.1 = some p.2 ∧ pyEq p.2 p.2 = true) →
    dictEqChain m m0 = true
  | .nil, m0, _ => rfl
  | .cons k v t, m0, hr => by
    have h1 := hr (k, v) (by simp [Members.toPairs])
    simp only [dictEqChain, h1.1, h1.2, Bool.and_eq_true, true_and]
    exact dictEqChain_of (fun p hp => hr p (by simp [Members.toPairs, hp]))

theorem allMemChain_of : ∀ {sub : TyList} {ysL : List Ty},
    (∀ t ∈ sub.toList, ysL.any (fun u => pyEq t u) = true) →
    allMemChain sub ysL = true
  | .nil, _, _ => rfl
  | .cons h t, ysL, hr => by
    simp only [allMemChain, Bool.and_eq_true]
    exact ⟨hr h (by simp [TyList.toList]),
      allMemChain_of (fun x hx => hr x (by simp [TyList.toList, hx]))⟩

theorem scanEqChain_of : ∀ {l : TyList} {u : Ty},
    (∃ t ∈ l.toList, pyEq t u = true) → scanEqChain l u = true
  | .nil, u, h => by simp [TyList.toList] at h
  | .cons h2 t, u, h => by
    simp only [TyList.toList, List.mem_cons] at h
    obtain ⟨x, hx, he⟩ := h
    rcases hx with hx | hx
    · subst hx; simp [scanEqChain, he]
    · simp only [scanEqChain, Bool.or_eq_true]
      exact Or.inr (scanEqChain_of ⟨x, hx, he⟩)

theorem pyValContains_refl {v : PyVal} {vs : List PyVal} (h : v ∈ vs) :
    vs.contains v = true := by
  simpa [List.contains] using h

/-- Python `==` is reflexive on representable types. -/
theorem pyEq_refl {t : Ty} (hw : PyWf t) : pyEq t t = true := by
  induction hw with
  | obj => rfl
  | nothing => rfl
  | dynamic => rfl
  | var i => simp [pyEq]
  | func hargs hret ihargs ihret =>
    simp only [pyEq, Bool.and_eq_true]
    exact ⟨tyListEqChain_refl ihargs, ihret⟩
  | @inst mro mems nm hnd hcm him hmnd hmems ihcm ihim ihmems =>
    simp only [pyEq, Bool.and_eq_true]
    refine ⟨mroEqChain_refl ihcm ihim, keysIncluded_refl mems, ?_⟩
    refine dictEqChain_of (fun p hp => ⟨nodup_dictGet hmnd hp, ?_⟩)
    exact ihmems p.2 (mem_memVals hp)
  | union hwf hnonu hdist hlen ih =>
    rename_i xs
    simp only [pyEq, Bool.and_eq_true]
    constructor
    · exact allMemChain_of (fun t ht =>
        List.any_eq_true.mpr ⟨t, ht, ih t ht⟩)
    · simp only [List.all_eq_true]
      intro u hu
      exact scanEqChain_of ⟨u, hu, ih u hu⟩
  | const hvt ih =>
    simp only [pyEq, Bool.and_eq_true, List.all_eq_true]
    refine ⟨ih, fun v hv => pyValContains_refl hv, fun v hv => pyValContains_refl hv⟩

theorem allMP_total {f : α → PyResult Bool} : ∀ {l : List α},
    (∀ x ∈ l, ∃ r, f x = .ok r) → ∃ r, allMP f l = .ok r
  | [], _ => ⟨true, rfl⟩
  | x :: xs, h => by
    obtain ⟨r, hr⟩ := h x (by simp)
    obtain ⟨r2, hr2⟩ := allMP_total (l := xs) (fun y hy => h y (by simp [hy]))
    cases r with
    | true => exact ⟨r2, by simp [allMP, hr, hr2]⟩
    | false => exact ⟨false, by simp [allMP, hr]⟩

theorem anyMP_total {f : α → PyResult Bool} : ∀ {l : List α},
    (∀ x ∈ l, ∃ r, f x = .ok r) → ∃ r, anyMP f l = .ok r
  | [], _ => ⟨false, rfl⟩
  | x :: xs, h => by
    obtain ⟨r, hr⟩ := h x (by simp)
    obtain ⟨r2, hr2⟩ := anyMP_total (l := xs) (fun y hy => h y (by simp [hy]))
    cases r with
    | false => exact ⟨r2, by simp [anyMP, hr, hr2]⟩
    | true => exact ⟨true, by simp [anyMP, hr]⟩

theorem dictIsSubP_total {f : Ty → Ty → PyResult Bool} {sup : Members} :
    ∀ {sub : Members},
    (∀ p ∈ sub.toPairs, ∀ sv, dictGet sup p.1 = some sv →
      ∃ r, f p.2 sv = .ok r) →
    ∃ r, dictIsSubP f sub sup = .ok r
  | .nil, _ => ⟨true, rfl⟩
  | .cons k v t, h => by
    cases hg : dictGet sup k with
    | none => exact ⟨false, by simp [dictIsSubP, hg]⟩
    | some sv =>
      obtain ⟨r, hr⟩ := h (k, v) (by simp [Members.toPairs]) sv hg
      obtain ⟨r2, hr2⟩ := @dictIsSubP_total _ _ t
        (fun p hp => h p (by simp [Members.toPairs, hp]))
      cases r with
      | true => exact ⟨r2, by simp [dictIsSubP, hg, hr, hr2]⟩
      | false => exact ⟨false, by simp [dictIsSubP, hg, hr]⟩

theorem varFree_struct {mro2 : ClsList} {mems2 : Members} {nm : Option String}
    (hb : VarFree (.inst mro2 mems2 nm)) {k : String} {v : Ty}
    (h : (k, v) ∈ (getStructure mro2 mems2).toPairs) : VarFree v := by
  cases hb with
  | inst hcm him hmems =>
    rcases mem_mroToStructure h with ⟨c, hc, hp⟩ | hp
    · rcases hp with hp | hp
      · exact hcm c hc v (mem_memVals hp)
      · exact him c hc v (mem_memVals hp)
    · exact hmems v (mem_memVals hp)

/-- On variable-free types, `issubtypeof` neither raises `TypeError` nor
runs out of (adequate) fuel: it returns a boolean. -/
theorem issubF_total : ∀ (fu : Nat) {a b : Ty}, VarFree a → VarFree b →
    tySize a + tySize b ≤ fu → ∃ r : Bool, issubF fu a b = .ok r := by
  intro fu
  induction fu with
  | zero =>
    intro a b _ _ hs
    have := tySize_pos a
    have := tySize_pos b
    omega
  | succ fu ih =>
    intro a b hva hvb hs
    cases a with
    | obj => exact ⟨false, rfl⟩
    | nothing => exact ⟨true, rfl⟩
    | dynamic => exact ⟨false, rfl⟩
    | var i => cases hva
    | union xs =>
      have hsz : tySize (Ty.union xs) = 1 + tyListSize xs := by simp [tySize]
      simp only [issubF]
      apply allMP_total
      intro t ht
      apply anyMP_total
      intro o ho
      have hvt : VarFree t := by cases hva with | union h => exact h t ht
      have hst : tySize t ≤ tyListSize xs := tySize_mem_le ht
      have hob : VarFree o ∧ tySize o ≤ tySize b := by
        cases b <;> simp only [List.mem_singleton] at ho
        case union ys =>
          cases hvb with
          | union h =>
            exact ⟨h o ho, le_trans (tySize_mem_le ho) (by simp [tySize])⟩
        all_goals (subst ho; exact ⟨hvb, le_refl _⟩)
      exact ih hvt hob.1 (by omega)
    | func args ret nm =>
      have hsz : tySize (Ty.func args ret nm) =
          1 + tyListSize args + tySize ret := by simp [tySize]
      have hvargs : ∀ t ∈ args.toList, VarFree t := by
        cases hva with | func h _ => exact h
      have hvret : VarFree ret := by
        cases hva with | func _ h => exact h
      cases b with
      | func args2 ret2 nm2 =>
        have hsz2 : tySize (Ty.func args2 ret2 nm2) =
            1 + tyListSize args2 + tySize ret2 := by simp [tySize]
        have hvargs2 : ∀ t ∈ args2.toList, VarFree t := by
          cases hvb with | func h _ => exact h
        have hvret2 : VarFree ret2 := by
          cases hvb with | func _ h => exact h
        simp only [issubF]
        by_cases hl : args.toList.length = args2.toList.length
        · simp only [hl, if_true]
          obtain ⟨r, hr⟩ := allMP_total (l := args.toList.zip args2.toList)
            (fun p hp => by
              obtain ⟨h1, h2⟩ := List.of_mem_zip hp
              exact ih (hvargs2 p.2 h2) (hvargs p.1 h1)
                (by
                  have := tySize_mem_le h1
                  have := tySize_mem_le h2
                  omega))
          rw [hr]
          cases r with
          | true =>
            obtain ⟨r2, hr2⟩ := ih hvret hvret2 (by omega)
            exact ⟨r2, hr2⟩
          | false => exact ⟨false, rfl⟩
        · simp only [hl, if_false]
          exact ⟨false, rfl⟩
      | inst mro2 mems2 nm2 => exact ⟨false, rfl⟩
      | var i => cases hvb
      | obj => exact ⟨true, by simp [issubF, pyEq]⟩
      | nothing => exact ⟨false, by simp [issubF, pyEq]⟩
      | dynamic => exact ⟨false, by simp [issubF, pyEq]⟩
      | const vs2 vt2 =>
        have hv2 : VarFree vt2 := by cases hvb with | const h => exact h
        have : tySize (Ty.const vs2 vt2) = 1 + tySize vt2 := by simp [tySize]
        simp only [issubF, pyEq]
        exact ih hva hv2 (by omega)
      | union ys =>
        simp only [issubF, pyEq]
        apply anyMP_total
        intro o ho
        have hvo : VarFree o := by cases hvb with | union h => exact h o ho
        have : tySize o ≤ tyListSize ys := tySize_mem_le ho
        have : tySize (Ty.union ys) = 1 + tyListSize ys := by simp [tySize]
        exact ih hva hvo (by omega)
    | inst mro mems nm =>
      have hsz : tySize (Ty.inst mro mems nm) =
          1 + clsListSize mro + membersSize mems := by simp [tySize]
      have hvmem : ∀ v ∈ memVals mems, VarFree v := by
        cases hva with | inst _ _ h => exact h
      cases b with
      | inst mro2 mems2 nm2 =>
        have hsz2 : tySize (Ty.inst mro2 mems2 nm2) =
            1 + clsListSize mro2 + membersSize mems2 := by simp [tySize]
        simp only [issubF]
        by_cases hss :
            isSubsequence (ClsList.toRecs mro2) (ClsList.toRecs mro) = true
        · simp only [hss, if_true]
          apply dictIsSubP_total
          intro p hp sv hg
          have hv1 : VarFree p.2 := hvmem p.2 (mem_memVals hp)
          have hv2 : VarFree sv := varFree_struct hvb (dictGet_mem hg)
          have hb1 : tySize p.2 ≤ membersSize mems := membersSize_mem_le hp
          have hb2 : tySize sv ≤ clsListSize mro2 + membersSize mems2 :=
            structVal_size_le (dictGet_mem hg)
          exact ih hv1 hv2 (by omega)
        · simp only [hss, if_false]
          exact ⟨false, rfl⟩
      | func args2 ret2 nm2 => exact ⟨false, rfl⟩
      | var i => cases hvb
      | obj => exact ⟨true, by simp [issubF, pyEq]⟩
      | nothing => exact ⟨false, by simp [issubF, pyEq]⟩
      | dynamic => exact ⟨false, by simp [issubF, pyEq]⟩
      | const vs2 vt2 =>
        have hv2 : VarFree vt2 := by cases hvb with | const h => exact h
        have : tySize (Ty.const vs2 vt2) = 1 + tySize vt2 := by simp [tySize]
        simp only [issubF, pyEq]
        exact ih hva hv2 (by omega)
      | union ys =>
        simp only [issubF, pyEq]
        apply anyMP_total
        intro o ho
        have hvo : VarFree o := by cases hvb with | union h => exact h o ho
        have : tySize o ≤ tyListSize ys := tySize_mem_le ho
        have : tySize (Ty.union ys) = 1 + tyListSize ys := by simp [tySize]
        exact ih hva hvo (by omega)
    | const vs vt =>
      have hvv : VarFree vt := by cases hva with | const h => exact h
      have hsz : tySize (Ty.const vs vt) = 1 + tySize vt := by simp [tySize]
      cases b with
      | const vs2 vt2 =>
        have hv2 : VarFree vt2 := by cases hvb with | const h => exact h
        have : tySize (Ty.const vs2 vt2) = 1 + tySize vt2 := by simp [tySize]
        simp only [issubF]
        by_cases hsub : vs.all (vs2.contains ·) = true
        · simp only [hsub, if_true]
          exact ih hvv hv2 (by omega)
        · simp only [hsub, if_false]
          exact ⟨false, rfl⟩
      | obj => exact ih hvv hvb (by simp [tySize] at *; omega)
      | nothing => exact ih hvv hvb (by simp [tySize] at *; omega)
      | dynamic => exact ih hvv hvb (by simp [tySize] at *; omega)
      | func a2 r2 n2 => exact ih hvv hvb (by simp [tySize] at *; omega)
      | inst m2 me2 n2 => exact ih hvv hvb (by simp [tySize] at *; omega)
      | union ys => exact ih hvv hvb (by simp [tySize] at *; omega)
      | var i => cases hvb

theorem dictGet_append : ∀ (d1 d2 : Members) (k : String),
    dictGet (Members.append d1 d2) k =
      match dictGet d1 k with
      | some v => some v
      | none => dictGet d2 k
  | .nil, d2, k => rfl
  | .cons k2 v2 t, d2, k => by
    by_cases hk : k2 = k <;>
      simp [Members.append, dictGet, hk, dictGet_append t d2 k]

theorem dictGet_overrideVals : ∀ (d2 d : Members) (k : String),
    dictGet (dictOverrideVals d2 d) k =
      match dictGet d k with
      | some v => some ((dictGet d2 k).getD v)
      | none => none
  | d2, .nil, k => rfl
  | d2, .cons k2 v2 t, k => by
    by_cases hk : k2 = k
    · subst hk
      cases hg : dictGet d2 k2 <;> simp [dictOverrideVals, dictGet, hg]
    · cases hg : dictGet d2 k2 <;>
        simp [dictOverrideVals, dictGet, hg, hk, dictGet_overrideVals d2 t k]

theorem dictGet_newEntries : ∀ (d1 d : Members) (k : String),
    hasKey d1 k = false → dictGet (dictNewEntries d1 d) k = dictGet d k
  | d1, .nil, k, _ => rfl
  | d1, .cons k2 v2 t, k, h => by
    by_cases hk : k2 = k
    · subst hk
      simp [dictNewEntries, h, dictGet, dictGet_newEntries d1 t k2 h]
    · by_cases h2 : hasKey d1 k2 = true <;>
        simp [dictNewEntries, h2, dictGet, hk, dictGet_newEntries d1 t k h]

theorem dictGet_update_right {d1 d2 : Members} {k : String} {v : Ty}
    (h : dictGet d2 k = some v) : dictGet (dictUpdate d1 d2) k = some v := by
  unfold dictUpdate
  rw [dictGet_append, dictGet_overrideVals]
  cases hg : dictGet d1 k with
  | some v1 => simp [h]
  | none =>
    have hk : hasKey d1 k = false := by simp [hasKey, hg]
    simp [dictGet_newEntries d1 d2 k hk, h]

theorem clsTupleEq_refl {c : ClassRec}
    (hnd1 : (dictKeys c.cmembers).Nodup) (hnd2 : (dictKeys c.imembers).Nodup)
    (h1 : ∀ v ∈ memVals c.cmembers, pyEq v v = true)
    (h2 : ∀ v ∈ memVals c.imembers, pyEq v v = true) :
    clsTupleEq c c = true := by
  simp only [clsTupleEq, dictFullEq, Bool.and_eq_true, decide_eq_true_eq]
  refine ⟨⟨⟨keysIncluded_refl _, ?_⟩, keysIncluded_refl _, ?_⟩, trivial⟩
  · exact dictEqChain_of (fun p hp =>
      ⟨nodup_dictGet hnd1 hp, h1 p.2 (mem_memVals hp)⟩)
  · exact dictEqChain_of (fun p hp =>
      ⟨nodup_dictGet hnd2 hp, h2 p.2 (mem_memVals hp)⟩)

theorem isSubsequence_refl : ∀ {l : List ClassRec},
    (∀ c ∈ l, clsTupleEq c c = true) → isSubsequence l l = true
  | [], _ => rfl
  | c :: cs, h => by
    have hc := h c (by simp)
    simp only [isSubsequence, skipToCls, hc, if_true]
    exact isSubsequence_refl (fun c2 hc2 => h c2 (by simp [hc2]))

theorem mem_zip_self {l : List α} {p : α × α} (h : p ∈ l.zip l) :
    p.1 = p.2 ∧ p.1 ∈ l := by
  induction l with
  | nil => simp at h
  | cons x xs ih =>
    simp only [List.zip_cons_cons, List.mem_cons] at h
    rcases h with h | h
    · subst h; simp
    · obtain ⟨h1, h2⟩ := ih h
      exact ⟨h1, by simp [h2]⟩

theorem allMP_ok_true {f : α → PyResult Bool} : ∀ {l : List α},
    (∀ x ∈ l, f x = .ok true) → allMP f l = .ok true
  | [], _ => rfl
  | x :: xs, h => by
    simp only [allMP, h x (by simp)]
    exact allMP_ok_true (fun y hy => h y (by simp [hy]))

theorem anyMP_ok_true {f : α → PyResult Bool} : ∀ {l : List α},
    (∀ x ∈ l, ∃ r, f x = .ok r) → (∃ x ∈ l, f x = .ok true) →
    anyMP f l = .ok true
  | [], _, hw => by simp at hw
  | x :: xs, ht, hw => by
    obtain ⟨r, hr⟩ := ht x (by simp)
    cases r with
    | true => simp [anyMP, hr]
    | false =>
      simp only [anyMP, hr]
      obtain ⟨y, hy, hyt⟩ := hw
      rcases List.mem_cons.mp hy with hy | hy
      · subst hy; rw [hr] at hyt; cases hyt
      · exact anyMP_ok_true (fun z hz => ht z (by simp [hz])) ⟨y, hy, hyt⟩

theorem dictIsSubP_ok_true {f : Ty → Ty → PyResult Bool} {sup : Members} :
    ∀ {sub : Members},
    (∀ p ∈ sub.toPairs, ∃ sv, dictGet sup p.1 = some sv ∧
      f p.2 sv = .ok true) →
    dictIsSubP f sub sup = .ok true
  | .nil, _ => rfl
  | .cons k v t, h => by
    obtain ⟨sv, hg, hf⟩ := h (k, v) (by simp [Members.toPairs])
    simp only [dictIsSubP, hg, hf]
    exact dictIsSubP_ok_true (fun p hp => h p (by simp [Members.toPairs, hp]))

/-- Reflexivity of `issubtypeof` on closed, representable types in which
`Object` and `Dynamic` do not occur. -/
theorem issubF_refl : ∀ (fu : Nat) {a : Ty}, PyWf a → VarFree a →
    NoTopDyn a → 2 * tySize a ≤ fu → issubF fu a a = .ok true := by
  intro fu
  induction fu with
  | zero =>
    intro a _ _ _ hs
    have := tySize_pos a
    omega
  | succ fu ih =>
    intro a hw hva hnd hs
    cases a with
    | obj => cases hnd
    | dynamic => cases hnd
    | var i => cases hva
    | nothing => rfl
    | func args ret nm =>
      have hsz : tySize (Ty.func args ret nm) =
          1 + tyListSize args + tySize ret := by simp [tySize]
      simp only [issubF, if_true]
      have hzip : allMP (fun p => issubF fu p.2 p.1)
          (args.toList.zip args.toList) = .ok true := by
        apply allMP_ok_true
        intro p hp
        obtain ⟨hpe, hpm⟩ := mem_zip_self hp
        have hws : PyWf p.1 := by cases hw with | func h _ => exact h p.1 hpm
        have hvs : VarFree p.1 := by cases hva with | func h _ => exact h p.1 hpm
        have hns : NoTopDyn p.1 := by cases hnd with | func h _ => exact h p.1 hpm
        have hsp : tySize p.1 ≤ tyListSize args := tySize_mem_le hpm
        rw [← hpe]
        exact ih hws hvs hns (by omega)
      rw [hzip]
      have hwr : PyWf ret := by cases hw with | func _ h => exact h
      have hvr : VarFree ret := by cases hva with | func _ h => exact h
      have hnr : NoTopDyn ret := by cases hnd with | func _ h => exact h
      exact ih hwr hvr hnr (by omega)
    | inst mro mems nm =>
      have hsz : tySize (Ty.inst mro mems nm) =
          1 + clsListSize mro + membersSize mems := by simp [tySize]
      have hss : isSubsequence (ClsList.toRecs mro) (ClsList.toRecs mro) =
          true := by
        apply isSubsequence_refl
        intro c hc
        cases hw with
        | inst hndc hcm him _ _ =>
          exact clsTupleEq_refl (hndc c hc).1 (hndc c hc).2
            (fun v hv => pyEq_refl (hcm c hc v hv))
            (fun v hv => pyEq_refl (him c hc v hv))
      simp only [issubF, hss, if_true]
      apply dictIsSubP_ok_true
      intro p hp
      have hmem : hasKey mems p.1 = true :=
        hasKey_of_mem_keys (mem_toPairs_key hp)
      have hndm : (dictKeys mems).Nodup := by
        cases hw with | inst _ _ _ h _ => exact h
      have hget : dictGet (getStructure mro mems) p.1 = some p.2 := by
        unfold getStructure mroToStructure
        exact dictGet_update_right (nodup_dictGet hndm hp)
      refine ⟨p.2, hget, ?_⟩
      have hwp : PyWf p.2 := by
        cases hw with | inst _ _ _ _ h => exact h p.2 (mem_memVals hp)
      have hvp : VarFree p.2 := by
        cases hva with | inst _ _ h => exact h p.2 (mem_memVals hp)
      have hnp : NoTopDyn p.2 := by
        cases hnd with | inst _ _ h => exact h p.2 (mem_memVals hp)
      have := membersSize_mem_le hp
      exact ih hwp hvp hnp (by omega)
    | union xs =>
      have hsz : tySize (Ty.union xs) = 1 + tyListSize xs := by simp [tySize]
      simp only [issubF]
      apply allMP_ok_true
      intro t ht
      have hwt : PyWf t := by cases hw with | union h _ _ _ => exact h t ht
      have hvt : VarFree t := by cases hva with | union h => exact h t ht
      have hnt : NoTopDyn t := by cases hnd with | union h => exact h t ht
      have hst : tySize t ≤ tyListSize xs := tySize_mem_le ht
      apply anyMP_ok_true
      · intro o ho
        have hvo : VarFree o := by cases hva with | union h => exact h o ho
        have hso : tySize o ≤ tyListSize xs := tySize_mem_le ho
        exact issubF_total fu hvt hvo (by omega)
      · exact ⟨t, ht, ih hwt hvt hnt (by omega)⟩
    | const vs vt =>
      have hsz : tySize (Ty.const vs vt) = 1 + tySize vt := by simp [tySize]
      have hsub : vs.all (vs.contains ·) = true := by
        simp only [List.all_eq_true]
        exact fun v hv => pyValContains_refl hv
      simp only [issubF, hsub, if_true]
      have hwv : PyWf vt := by cases hw with | const h => exact h
      have hvv : VarFree vt := by cases hva with | const h => exact h
      have hnv : NoTopDyn vt := by cases hnd with | const h => exact h
      exact ih hwv hvv hnv (by omega)

theorem allMP_ok_true_iff {f : α → PyResult Bool} : ∀ {l : List α},
    allMP f l = .ok true ↔ ∀ x ∈ l, f x = .ok true := by
  intro l
  constructor
  · intro h x hx
    induction l with
    | nil => simp at hx
    | cons y ys ihl =>
      rcases List.mem_cons.mp hx with hx | hx
      · subst hx
        cases hy : f x with
        | ok r =>
          cases r with
          | true => rfl
          | false => rw [allMP, hy] at h; cases h
        | exn e => rw [allMP, hy] at h; cases h
        | fuelOut => rw [allMP, hy] at h; cases h
      · cases hy : f y with
        | ok r =>
          cases r with
          | true => rw [allMP, hy] at h; exact ihl h hx
          | false => rw [allMP, hy] at h; cases h
        | exn e => rw [allMP, hy] at h; cases h
        | fuelOut => rw [allMP, hy] at h; cases h
  · exact allMP_ok_true

/-- Claim C1, counterexample: the subtype predicate is not reflexive on
the Top (`Object`) and `Dynamic` variants; both return `False` when
compared with themselves (any fuel from 1 up gives the same answer). -/
theorem C1_top_dynamic_not_reflexive :
    issubF 5 Ty.obj Ty.obj = .ok false ∧
      issubF 5 Ty.dynamic Ty.dynamic = .ok false :=
  ⟨rfl, rfl⟩

/-- Claim C1, amended: `T.issubtypeof(T)` returns `True` for every closed
(variable-free) representable type `T` in which neither `Object` nor
`Dynamic` occurs; it is false for `Object` and `Dynamic` themselves
(and for types containing them in checked positions). -/
theorem C1_reflexivity_closed_no_top_dynamic (fu : Nat) (T : Ty)
    (hw : PyWf T) (hclosed : VarFree T) (hntd : NoTopDyn T)
    (hfu : 2 * tySize T ≤ fu) : issubF fu T T = .ok true :=
  issubF_refl fu hw hclosed hntd hfu

/-- Witness for the amended C1 at a concrete instance type. -/
theorem C1_reflexivity_witness :
    issubF 4 (.inst (.cons "A" .nil .nil .nil) .nil (some "A"))
      (.inst (.cons "A" .nil .nil .nil) .nil (some "A")) = .ok true :=
  C1_reflexivity_closed_no_top_dynamic 4
    (.inst (.cons "A" .nil .nil .nil) .nil (some "A"))
    (PyWf.inst
      (by intro c hc; simp [ClsList.toRecs] at hc; subst hc; simp [dictKeys])
      (by intro c hc v hv; simp [ClsList.toRecs] at hc; subst hc
          simp [memVals, Members.toPairs] at hv)
      (by intro c hc v hv; simp [ClsList.toRecs] at hc; subst hc
          simp [memVals, Members.toPairs] at hv)
      (by simp [dictKeys]) (by intro v hv; simp [memVals, Members.toPairs] at hv))
    (VarFree.inst
      (by intro c hc v hv; simp [ClsList.toRecs] at hc; subst hc
          simp [memVals, Members.toPairs] at hv)
      (by intro c hc v hv; simp [ClsList.toRecs] at hc; subst hc
          simp [memVals, Members.toPairs] at hv)
      (by intro v hv; simp [memVals, Members.toPairs] at hv))
    (NoTopDyn.inst
      (by intro c hc v hv; simp [ClsList.toRecs] at hc; subst hc
          simp [memVals, Members.toPairs] at hv)
      (by intro c hc v hv; simp [ClsList.toRecs] at hc; subst hc
          simp [memVals, Members.toPairs] at hv)
      (by intro v hv; simp [memVals, Members.toPairs] at hv))
    (by decide)

/-- Claim C2: `Function(a1..an, r).issubtypeof(Function(b1..bm, s))`
returns `True` exactly when the arities match, every `bi <: ai` holds
(contravariant arguments) and `r <: s` holds; with mismatched arities it
returns `False`. -/
theorem C2_function_subtyping_contravariant :
    (∀ (fu : Nat) (args1 : TyList) (ret1 : Ty) (nm1 : Option String)
        (args2 : TyList) (ret2 : Ty) (nm2 : Option String),
      args1.toList.length = args2.toList.length →
      (issubF (fu + 1) (.func args1 ret1 nm1) (.func args2 ret2 nm2) =
          .ok true ↔
        (∀ p ∈ args1.toList.zip args2.toList, issubF fu p.2 p.1 = .ok true) ∧
          issubF fu ret1 ret2 = .ok true)) ∧
    (∀ (fu : Nat) (args1 : TyList) (ret1 : Ty) (nm1 : Option String)
        (args2 : TyList) (ret2 : Ty) (nm2 : Option String),
      args1.toList.length ≠ args2.toList.length →
      issubF (fu + 1) (.func args1 ret1 nm1) (.func args2 ret2 nm2) =
        .ok false) := by
  constructor
  · intro fu args1 ret1 nm1 args2 ret2 nm2 hl
    simp only [issubF, hl, if_true]
    constructor
    · intro h
      cases hall : allMP (fun p => issubF fu p.2 p.1)
          (args1.toList.zip args2.toList) with
      | ok r =>
        cases r with
        | true =>
          rw [hall] at h
          exact ⟨allMP_ok_true_iff.mp hall, h⟩
        | false => rw [hall] at h; cases h
      | exn e => rw [hall] at h; cases h
      | fuelOut => rw [hall] at h; cases h
    · intro ⟨hargs, hret⟩
      rw [allMP_ok_true_iff.mpr hargs, hret]
  · intro fu args1 ret1 nm1 args2 ret2 nm2 hl
    simp [issubF, hl]

/-- Witness for C2 at concrete function types. -/
theorem C2_function_subtyping_witness :
    issubF 2 (.func (.cons .nothing .nil) .nothing none)
      (.func (.cons .nothing .nil) .nothing none) = .ok true ∧
    issubF 2 (.func (.cons .nothing .nil) .nothing none)
      (.func .nil .nothing none) = .ok false :=
  ⟨(C2_function_subtyping_contravariant.1 1 (.cons .nothing .nil) .nothing
      none (.cons .nothing .nil) .nothing none rfl).mpr
    ⟨by intro p hp; simp [TyList.toList] at hp; subst hp; rfl, rfl⟩,
   C2_function_subtyping_contravariant.2 1 (.cons .nothing .nil) .nothing
      none .nil .nothing none (by simp [TyList.toList])⟩

/-- Claim C6: `Constant(vs, vt).issubtypeof(T)` delegates to `vt <: T`
for non-constant `T`, and for two constants requires value-set inclusion
and `vt1 <: vt2`. -/
theorem C6_constant_subtyping :
    (∀ (fu : Nat) (vs : List PyVal) (vt b : Ty), b.isConst = false →
      issubF (fu + 1) (.const vs vt) b = issubF fu vt b) ∧
    (∀ (fu : Nat) (vs1 : List PyVal) (vt1 : Ty) (vs2 : List PyVal) (vt2 : Ty),
      issubF (fu + 1) (.const vs1 vt1) (.const vs2 vt2) = .ok true ↔
        vs1.all (vs2.contains ·) = true ∧ issubF fu vt1 vt2 = .ok true) := by
  constructor
  · intro fu vs vt b hb
    cases b <;> first
      | rfl
      | simp [Ty.isConst] at hb
  · intro fu vs1 vt1 vs2 vt2
    simp only [issubF]
    cases hsub : vs1.all (vs2.contains ·) with
    | true => simp [hsub]
    | false => simp [hsub]

/-- Witness for C6 at concrete constant types. -/
theorem C6_constant_subtyping_witness :
    issubF 3 (.const [⟨0, 0⟩] .nothing) (.inst .nil .nil none) =
      issubF 2 .nothing (.inst .nil .nil none) ∧
    issubF 3 (.const [⟨0, 0⟩] .nothing) (.const [⟨0, 0⟩, ⟨0, 1⟩] .nothing) =
      .ok true :=
  ⟨C6_constant_subtyping.1 2 [⟨0, 0⟩] .nothing (.inst .nil .nil none) rfl,
   (C6_constant_subtyping.2 2 [⟨0, 0⟩] .nothing [⟨0, 0⟩, ⟨0, 1⟩] .nothing).mpr
     ⟨by decide, rfl⟩⟩

/-- Claim C9: the failing input.  Two `Instance` types that differ only
in their `name` compare equal under `Instance.__eq__` (which ignores the
name) yet hash differently under `Instance.__hash__` (which xors in
`hash(self.name)`), breaking the hash/eq contract the claim states. -/
theorem C9_instance_hash_incompatible_with_eq :
    pyEq (.inst (.cons "A" .nil .nil .nil) .nil (some "a"))
        (.inst (.cons "A" .nil .nil .nil) .nil (some "b")) = true ∧
      pyHash (.inst (.cons "A" .nil .nil .nil) .nil (some "a")) ≠
        pyHash (.inst (.cons "A" .nil .nil .nil) .nil (some "b")) := by
  exact ⟨rfl, by decide⟩

/-- Claim C10: calling `new_variable_subtype(super1)` with the second
bound left at its `None` default always raises (an `AttributeError` from
`None.contains_variable` inside `ConstraintStore.issubtypeof`), for any
store: a constraint whose right side compares equal to `None` cannot
exist, since `Type.__eq__` methods are `False` on `None`. -/
theorem C10_new_variable_subtype_none_raises (fu : Nat) (st : Store)
    (s1 : Ty) : nvSubF fu s1 none st = .exn .attributeError := by
  unfold nvSubF storeIssub
  have hany : (st.constraints.any
      (fun c => optTyEq (some s1) c.left && optTyEq none c.right)) = false := by
    simp [optTyEq]
  cases hv : containsVar s1 with
  | true => simp [hv, hany]
  | false => simp [hv]

/-- Witness for C10 at a concrete type and the empty store. -/
theorem C10_new_variable_subtype_none_raises_witness :
    nvSubF 3 Ty.obj none ⟨[], [], [], 1⟩ = .exn .attributeError :=
  C10_new_variable_subtype_none_raises 3 ⟨[], [], [], 1⟩ Ty.obj

/-- The `vm` with an empty `type_map`, as in the repository's type tests. -/
def vmEmpty : VM := ⟨[]⟩

/-- A fresh, empty constraint store. -/
def storeEmpty : Store := ⟨[], [], [], 1⟩

/-- Claim C4, counterexample: `Object().join(Dynamic())` returns `Object`,
not `Dynamic`, because `Object.join` returns `self` unconditionally —
so `T.join(Dynamic) = Dynamic` fails at `T = Object` (and the store is
untouched). -/
theorem C4_top_join_dynamic_is_top :
    tyJoin 2 vmEmpty .obj .dynamic storeEmpty = .ok (.obj, storeEmpty) ∧
      Ty.obj ≠ Ty.dynamic :=
  ⟨rfl, fun h => Ty.noConfusion h⟩

/-- Claim C4, amended: the identity and absorption laws hold with these
qualifications.  `Dynamic.join(T) = Dynamic = Dynamic.meet(T)` for every
`T`.  For every receiver `T` that is not a `ConstantType` and not a
`Variable`: `T.join(Nothing) = T` and `T.meet(Object) = T`;
`T.join(Object) = Object` and `T.meet(Nothing) = Nothing` unless `T` is
`Dynamic`; `T.join(Dynamic) = Dynamic` unless `T` is `Object`; and
`T.meet(Dynamic) = Dynamic` unless `T` is `Nothing`.  A `ConstantType`
receiver instead decays to its `value_type` against any non-constant
argument, so `Constant(value_type=Object).join(Dynamic) = Object` and
`Constant(value_type=Nothing).meet(Dynamic) = Nothing`; a `Variable`
receiver instead always delegates to
`new_variable_supertype(other, self)` / `new_variable_subtype(other,
self)`, which on an empty store allocate and return a fresh variable —
not `Dynamic` — even against `Dynamic`. -/
theorem C4_lattice_laws_amended :
    (∀ (fu : Nat) (vm : VM) (st : Store) (T : Ty), 1 ≤ fu →
      tyJoin fu vm .dynamic T st = .ok (.dynamic, st) ∧
        tyMeet fu vm .dynamic T st = .ok (.dynamic, st)) ∧
    (∀ (fu : Nat) (vm : VM) (st : Store) (T : Ty), 2 ≤ fu →
      T.isConst = false → T.isVar = false →
      tyJoin fu vm T .nothing st = .ok (T, st) ∧
      tyMeet fu vm T .obj st = .ok (T, st) ∧
      (T ≠ .dynamic →
        tyJoin fu vm T .obj st = .ok (.obj, st) ∧
          tyMeet fu vm T .nothing st = .ok (.nothing, st)) ∧
      (T ≠ .obj → tyJoin fu vm T .dynamic st = .ok (.dynamic, st)) ∧
      (T ≠ .nothing → tyMeet fu vm T .dynamic st = .ok (.dynamic, st))) ∧
    (∀ (fu : Nat) (vm : VM) (st : Store) (vs : List PyVal) (vt T : Ty),
      T.isConst = false →
      tyJoin (fu + 1) vm (.const vs vt) T st = tyJoin fu vm vt T st ∧
      tyMeet (fu + 1) vm (.const vs vt) T st = tyMeet fu vm vt T st) ∧
    (∀ (fu : Nat) (vm : VM) (st : Store) (i : Nat) (T : Ty),
      tyJoin (fu + 1) vm (.var i) T st = nvSupF fu T (.var i) st ∧
      tyMeet (fu + 1) vm (.var i) T st = nvSubF fu T (some (.var i)) st) ∧
    (∀ (fu : Nat) (vm : VM) (st : Store) (vs : List PyVal), 2 ≤ fu →
      tyJoin fu vm (.const vs .obj) .dynamic st = .ok (.obj, st) ∧
      tyMeet fu vm (.const vs .nothing) .dynamic st = .ok (.nothing, st)) ∧
    (tyMeet 3 vmEmpty (.var 5) .dynamic storeEmpty =
        .ok (.var 1, ⟨[⟨.subtype, .var 1, .dynamic⟩,
          ⟨.subtype, .var 1, .var 5⟩], [], [1], 2⟩) ∧
      tyJoin 3 vmEmpty (.var 5) .dynamic storeEmpty =
        .ok (.var 1, ⟨[⟨.subtype, .dynamic, .var 1⟩,
          ⟨.subtype, .var 5, .var 1⟩], [], [1], 2⟩) ∧
      Ty.var 1 ≠ Ty.dynamic) := by
  refine ⟨?_, ?_, ?_, ?_, ?_, ?_⟩
  · intro fu vm st T hfu
    match fu, hfu with
    | fu + 1, _ => exact ⟨rfl, rfl⟩
  · intro fu vm st T hfu hc hv
    match fu, hfu with
    | fu + 2, _ =>
      cases T with
      | obj =>
        exact ⟨rfl, rfl, fun _ => ⟨rfl, rfl⟩, fun h => absurd rfl h,
          fun _ => rfl⟩
      | nothing =>
        exact ⟨rfl, rfl, fun _ => ⟨rfl, rfl⟩, fun _ => rfl,
          fun h => absurd rfl h⟩
      | dynamic =>
        exact ⟨rfl, rfl, fun h => absurd rfl h, fun _ => rfl, fun _ => rfl⟩
      | func args ret nm =>
        exact ⟨rfl, rfl, fun _ => ⟨rfl, rfl⟩, fun _ => rfl, fun _ => rfl⟩
      | inst mro mems nm =>
        exact ⟨rfl, rfl, fun _ => ⟨rfl, rfl⟩, fun _ => rfl, fun _ => rfl⟩
      | union xs =>
        exact ⟨rfl, rfl, fun _ => ⟨rfl, rfl⟩, fun _ => rfl, fun _ => rfl⟩
      | const vs vt => simp [Ty.isConst] at hc
      | var i => simp [Ty.isVar] at hv
  · intro fu vm st vs vt T hc
    cases T with
    | obj => exact ⟨rfl, rfl⟩
    | nothing => exact ⟨rfl, rfl⟩
    | dynamic => exact ⟨rfl, rfl⟩
    | func args ret nm => exact ⟨rfl, rfl⟩
    | inst mro mems nm => exact ⟨rfl, rfl⟩
    | union xs => exact ⟨rfl, rfl⟩
    | const vs2 vt2 => simp [Ty.isConst] at hc
    | var i => exact ⟨rfl, rfl⟩
  · intro fu vm st i T
    exact ⟨rfl, rfl⟩
  · intro fu vm st vs hfu
    match fu, hfu with
    | fu + 2, _ => exact ⟨rfl, rfl⟩
  · exact ⟨rfl, rfl, fun h => Ty.noConfusion h⟩

/-- Witness for the amended C4 at concrete types: an instance type for
the unit laws, a constant decaying to its `value_type`, and a constant
whose `value_type` is `Object` absorbing `Dynamic` into `Object`. -/
theorem C4_lattice_laws_witness :
    tyJoin 2 vmEmpty .dynamic (.inst .nil .nil none) storeEmpty =
      .ok (.dynamic, storeEmpty) ∧
    tyJoin 2 vmEmpty (.inst .nil .nil none) .nothing storeEmpty =
      .ok (.inst .nil .nil none, storeEmpty) ∧
    tyMeet 2 vmEmpty (.inst .nil .nil none) .dynamic storeEmpty =
      .ok (.dynamic, storeEmpty) ∧
    tyJoin 3 vmEmpty (.const [] .obj) (.inst .nil .nil none) storeEmpty =
      tyJoin 2 vmEmpty .obj (.inst .nil .nil none) storeEmpty ∧
    tyJoin 2 vmEmpty (.const [] .obj) .dynamic storeEmpty =
      .ok (.obj, storeEmpty) :=
  ⟨(C4_lattice_laws_amended.1 2 vmEmpty storeEmpty (.inst .nil .nil none)
      (by decide)).1,
   (C4_lattice_laws_amended.2.1 2 vmEmpty storeEmpty (.inst .nil .nil none)
      (by decide) rfl rfl).1,
   ((C4_lattice_laws_amended.2.1 2 vmEmpty storeEmpty (.inst .nil .nil none)
      (by decide) rfl rfl).2.2.2.2 (fun h => Ty.noConfusion h)),
   (C4_lattice_laws_amended.2.2.1 2 vmEmpty storeEmpty [] .obj
      (.inst .nil .nil none) rfl).1,
   (C4_lattice_laws_amended.2.2.2.2.1 2 vmEmpty storeEmpty []
      (by decide)).1⟩

theorem constrainSubtype_completed (st : Store) (a b : Ty) :
    (constrainSubtype st a b).completed_constraints =
      st.completed_constraints := by
  simp only [constrainSubtype]
  split <;> rfl

theorem constrainSupertype_completed (st : Store) (a b : Ty) :
    (constrainSupertype st a b).completed_constraints =
      st.completed_constraints :=
  constrainSubtype_completed st b a

theorem newVariable_completed (st : Store) :
    (newVariable st).2.completed_constraints = st.completed_constraints :=
  rfl

theorem nvSupF_completed {fu : Nat} {s1 s2 : Ty} {st : Store} {r : Ty}
    {st2 : Store} (h : nvSupF fu s1 s2 st = .ok (r, st2)) :
    st2.completed_constraints = st.completed_constraints := by
  unfold nvSupF at h
  cases h1 : storeIssub fu st (some s2) (some s1) with
  | exn e => rw [h1] at h; cases h
  | fuelOut => rw [h1] at h; cases h
  | ok r1 =>
    rw [h1] at h
    dsimp only at h
    by_cases hr1 : r1 = some true
    · rw [if_pos hr1] at h
      simp only [PyResult.ok.injEq, Prod.mk.injEq] at h
      rw [← h.2]
    · rw [if_neg hr1] at h
      cases h2 : storeIssub fu st (some s1) (some s2) with
      | exn e => rw [h2] at h; cases h
      | fuelOut => rw [h2] at h; cases h
      | ok r2 =>
        rw [h2] at h
        dsimp only at h
        by_cases hr2 : r2 = some true
        · rw [if_pos hr2] at h
          simp only [PyResult.ok.injEq, Prod.mk.injEq] at h
          rw [← h.2]
        · rw [if_neg hr2] at h
          cases hnv : newVariable st with
          | mk v st1 =>
            rw [hnv] at h
            dsimp only at h
            simp only [PyResult.ok.injEq, Prod.mk.injEq] at h
            rw [← h.2]
            have hst1 : (newVariable st).2 = st1 := by rw [hnv]
            simp only [constrainSupertype_completed,
              constrainSubtype_completed, ← hst1]
            rfl

theorem nvSubF_completed {fu : Nat} {s1 : Ty} {s2 : Option Ty} {st : Store}
    {r : Ty} {st2 : Store} (h : nvSubF fu s1 s2 st = .ok (r, st2)) :
    st2.completed_constraints = st.completed_constraints := by
  unfold nvSubF at h
  cases h1 : storeIssub fu st (some s1) s2 with
  | exn e => rw [h1] at h; cases h
  | fuelOut => rw [h1] at h; cases h
  | ok r1 =>
    rw [h1] at h
    dsimp only at h
    by_cases hr1 : r1 = some true
    · rw [if_pos hr1] at h
      simp only [PyResult.ok.injEq, Prod.mk.injEq] at h
      rw [← h.2]
    · rw [if_neg hr1] at h
      cases h2 : storeIssub fu st s2 (some s1) with
      | exn e => rw [h2] at h; cases h
      | fuelOut => rw [h2] at h; cases h
      | ok r2 =>
        rw [h2] at h
        dsimp only at h
        by_cases hr2 : r2 = some true
        · rw [if_pos hr2] at h
          cases s2 with
          | none => cases h
          | some t2 =>
            simp only [PyResult.ok.injEq, Prod.mk.injEq] at h
            rw [← h.2]
        · rw [if_neg hr2] at h
          cases hnv : newVariable st with
          | mk v st1 =>
            rw [hnv] at h
            dsimp only at h
            cases s2 with
            | none => cases h
            | some t2 =>
              simp only [PyResult.ok.injEq, Prod.mk.injEq] at h
              rw [← h.2]
              have hst1 : (newVariable st).2 = st1 := by rw [hnv]
              simp only [constrainSubtype_completed, ← hst1]
              rfl

theorem zipOpAux_completed {op : Ty → Ty → Store → PyResult (Ty × Store)}
    (hop : ∀ x y s r s2, op x y s = .ok (r, s2) →
      s2.completed_constraints = s.completed_constraints) :
    ∀ {l1 l2 : List Ty} {st : Store} {r : List Ty} {st2 : Store},
    zipOpAux op l1 l2 st = .ok (r, st2) →
    st2.completed_constraints = st.completed_constraints := by
  intro l1
  induction l1 with
  | nil =>
    intro l2 st r st2 h
    simp only [zipOpAux, PyResult.ok.injEq, Prod.mk.injEq] at h
    rw [← h.2]
  | cons x xs ih =>
    intro l2 st r st2 h
    cases l2 with
    | nil =>
      simp only [zipOpAux, PyResult.ok.injEq, Prod.mk.injEq] at h
      rw [← h.2]
    | cons y ys =>
      simp only [zipOpAux] at h
      split at h
      · rename_i t st3 heq
        split at h
        · rename_i ts st4 heq2
          simp only [PyResult.ok.injEq, Prod.mk.injEq] at h
          rw [← h.2]
          rw [ih heq2, hop x y st t st3 heq]
        · cases h
        · cases h
      · cases h
      · cases h

theorem seqFoldAux_completed {op : Ty → Ty → Store → PyResult (Ty × Store)}
    (hop : ∀ x y s r s2, op x y s = .ok (r, s2) →
      s2.completed_constraints = s.completed_constraints) :
    ∀ {l : List Ty} {acc : Ty} {st : Store} {r : Ty} {st2 : Store},
    seqFoldAux op acc l st = .ok (r, st2) →
    st2.completed_constraints = st.completed_constraints := by
  intro l
  induction l with
  | nil =>
    intro acc st r st2 h
    simp only [seqFoldAux, PyResult.ok.injEq, Prod.mk.injEq] at h
    rw [← h.2]
  | cons x xs ih =>
    intro acc st r st2 h
    simp only [seqFoldAux] at h
    split at h
    · rename_i t st3 heq
      rw [ih h, hop acc x st t st3 heq]
    · cases h
    · cases h

theorem mkConstantAux_completed {op : Ty → Ty → Store → PyResult (Ty × Store)}
    (hop : ∀ x y s r s2, op x y s = .ok (r, s2) →
      s2.completed_constraints = s.completed_constraints)
    {vm : VM} {values : List PyVal} {wt : Option Ty} {st : Store} {r : Ty}
    {st2 : Store} (h : mkConstantAux op vm values wt st = .ok (r, st2)) :
    st2.completed_constraints = st.completed_constraints := by
  unfold mkConstantAux at h
  dsimp only at h
  cases hf : seqFoldAux op Ty.nothing
      (wt.getD Ty.nothing ::
        List.filterMap (fun v => lookupTypeMap vm.type_map v.cls) values)
      st with
  | exn e => rw [hf] at h; cases h
  | fuelOut => rw [hf] at h; cases h
  | ok p =>
    obtain ⟨vt, st3⟩ := p
    rw [hf] at h
    dsimp only at h
    simp only [PyResult.ok.injEq, Prod.mk.injEq] at h
    rw [← h.2]
    exact seqFoldAux_completed hop hf

theorem dictJoinAux_completed {op : Ty → Ty → Store → PyResult (Ty × Store)}
    (hop : ∀ x y s r s2, op x y s = .ok (r, s2) →
      s2.completed_constraints = s.completed_constraints) {d2 : Members} :
    ∀ {d : Members} {st : Store} {r : Members} {st2 : Store},
    dictJoinAux op d2 d st = .ok (r, st2) →
    st2.completed_constraints = st.completed_constraints
  | .nil, st, r, st2, h => by
    simp only [dictJoinAux, PyResult.ok.injEq, Prod.mk.injEq] at h
    rw [← h.2]
  | .cons k v t, st, r, st2, h => by
    simp only [dictJoinAux] at h
    cases hg : dictGet d2 k with
    | none =>
      rw [hg] at h
      dsimp only at h
      exact dictJoinAux_completed hop h
    | some u =>
      rw [hg] at h
      dsimp only at h
      cases hop1 : op v u st with
      | exn e => rw [hop1] at h; cases h
      | fuelOut => rw [hop1] at h; cases h
      | ok p =>
        obtain ⟨t2, st3⟩ := p
        rw [hop1] at h
        dsimp only at h
        cases hrec : dictJoinAux op d2 t st3 with
        | exn e => rw [hrec] at h; cases h
        | fuelOut => rw [hrec] at h; cases h
        | ok q =>
          obtain ⟨ms, st4⟩ := q
          rw [hrec] at h
          dsimp only at h
          simp only [PyResult.ok.injEq, Prod.mk.injEq] at h
          rw [← h.2]
          rw [dictJoinAux_completed hop hrec, hop v u st t2 st3 hop1]

theorem dictMeetAux_completed {op : Ty → Ty → Store → PyResult (Ty × Store)}
    (hop : ∀ x y s r s2, op x y s = .ok (r, s2) →
      s2.completed_constraints = s.completed_constraints)
    {d1 d2 : Members} :
    ∀ {ns : List String} {st : Store} {r : Members} {st2 : Store},
    dictMeetAux op d1 d2 ns st = .ok (r, st2) →
    st2.completed_constraints = st.completed_constraints := by
  intro ns
  induction ns with
  | nil =>
    intro st r st2 h
    simp only [dictMeetAux, PyResult.ok.injEq, Prod.mk.injEq] at h
    rw [← h.2]
  | cons n rest ih =>
    intro st r st2 h
    simp only [dictMeetAux] at h
    split at h
    · rename_i t st3 heq
      split at h
      · rename_i ms st4 heq2
        simp only [PyResult.ok.injEq, Prod.mk.injEq] at h
        rw [← h.2]
        rw [ih heq2, seqFoldAux_completed hop heq]
      · cases h
      · cases h
    · cases h
    · cases h

/-- `join`/`meet` never touch the completed-constraint set: every store
effect of the lattice operations goes through `new_variable` and
`constrain_subtype`. -/
theorem latOp_completed : ∀ (fu : Nat) (mode : Bool) (vm : VM) (a b : Ty)
    (st : Store) (r : Ty) (st2 : Store),
    latOp fu mode vm a b st = .ok (r, st2) →
    st2.completed_constraints = st.completed_constraints := by
  intro fu
  induction fu with
  | zero =>
    intro mode vm a b st r st2 h
    simp [latOp] at h
  | succ fu ih =>
    intro mode vm a b st r st2 h
    have inj : ∀ {t : Ty} {s : Store},
        PyResult.ok (t, s) = PyResult.ok (r, st2) →
        st2.completed_constraints = s.completed_constraints := by
      intro t s he
      simp only [PyResult.ok.injEq, Prod.mk.injEq] at he
      rw [← he.2]
    cases a with
    | dynamic => exact inj h
    | obj =>
      cases mode with
      | true => exact inj h
      | false => exact inj h
    | nothing =>
      cases mode with
      | true => exact inj h
      | false => exact inj h
    | var i =>
      cases mode with
      | true => exact nvSupF_completed h
      | false => exact nvSubF_completed h
    | union xs =>
      cases b with
      | union ys =>
        cases mode with
        | true => exact inj h
        | false => exact inj h
      | func args2 ret2 nm2 =>
        cases mode with
        | true => exact inj h
        | false =>
          dsimp only [latOp] at h
          by_cases hc : (!(List.filter
              (fun t => pyEq t (Ty.func args2 ret2 nm2)) xs.toList).isEmpty)
              = true
          · rw [if_pos hc] at h
            exact inj h
          · rw [if_neg hc] at h
            exact nvSubF_completed h
      | inst mro2 mems2 nm2 =>
        cases mode with
        | true => exact inj h
        | false =>
          dsimp only [latOp] at h
          by_cases hc : (!(List.filter
              (fun t => pyEq t (Ty.inst mro2 mems2 nm2)) xs.toList).isEmpty)
              = true
          · rw [if_pos hc] at h
            exact inj h
          · rw [if_neg hc] at h
            exact nvSubF_completed h
      | obj => exact ih mode vm .obj (.union xs) st r st2 h
      | nothing => exact ih mode vm .nothing (.union xs) st r st2 h
      | dynamic => exact ih mode vm .dynamic (.union xs) st r st2 h
      | const vs2 vt2 => exact ih mode vm (.union xs) vt2 st r st2 h
      | var i =>
        cases mode with
        | true => exact nvSupF_completed h
        | false => exact nvSubF_completed h
    | func args ret nm =>
      cases b with
      | func args2 ret2 nm2 =>
        dsimp only [latOp] at h
        split at h
        · cases hz : zipOpAux (fun x y st => latOp fu (!mode) vm x y st)
              (TyList.toList args2) (TyList.toList args) st with
          | exn e => rw [hz] at h; cases h
          | fuelOut => rw [hz] at h; cases h
          | ok p =>
            obtain ⟨argsL, st3⟩ := p
            rw [hz] at h
            dsimp only at h
            cases hr : latOp fu mode vm ret ret2 st3 with
            | exn e => rw [hr] at h; cases h
            | fuelOut => rw [hr] at h; cases h
            | ok q =>
              obtain ⟨rr, st4⟩ := q
              rw [hr] at h
              dsimp only at h
              rw [inj h, ih mode vm ret ret2 st3 rr st4 hr]
              exact zipOpAux_completed
                (fun x y s r2 s2 he => ih (!mode) vm x y s r2 s2 he) hz
        · exact inj h
      | union ys => exact ih mode vm (.union ys) (.func args ret nm) st r st2 h
      | obj => exact ih mode vm .obj (.func args ret nm) st r st2 h
      | nothing => exact ih mode vm .nothing (.func args ret nm) st r st2 h
      | dynamic => exact ih mode vm .dynamic (.func args ret nm) st r st2 h
      | const vs2 vt2 => exact ih mode vm (.func args ret nm) vt2 st r st2 h
      | inst mro2 mems2 nm2 => exact PyResult.noConfusion h
      | var i =>
        cases mode with
        | true => exact nvSupF_completed h
        | false => exact nvSubF_completed h
    | inst mro mems nm =>
      cases b with
      | inst mro2 mems2 nm2 =>
        cases mode with
        | true =>
          dsimp only [latOp] at h
          cases hl : longestCommonSubsequence (ClsList.toRecs mro)
              (ClsList.toRecs mro2) with
          | none => rw [hl] at h; cases h
          | some p =>
            obtain ⟨mroL, selfIgn, otherIgn⟩ := p
            rw [hl] at h
            dsimp only at h
            cases hd : dictJoinAux (fun x y st => latOp fu true vm x y st)
                (mroToStructure otherIgn mems2)
                (mroToStructure selfIgn mems) st with
            | exn e => rw [hd] at h; cases h
            | fuelOut => rw [hd] at h; cases h
            | ok q =>
              obtain ⟨ms, st3⟩ := q
              rw [hd] at h
              dsimp only at h
              rw [inj h]
              exact dictJoinAux_completed
                (fun x y s r2 s2 he => ih true vm x y s r2 s2 he) hd
        | false =>
          dsimp only [latOp] at h
          cases hm : mergeMrosRun (ClsList.toRecs mro) (ClsList.toRecs mro2)
              with
          | exn e => rw [hm] at h; cases h
          | fuelOut => rw [hm] at h; cases h
          | ok mroL =>
            rw [hm] at h
            dsimp only at h
            cases hd : dictMeetAux (fun x y st => latOp fu false vm x y st)
                mems mems2 (dedupStr [] (dictKeys mems ++ dictKeys mems2))
                st with
            | exn e => rw [hd] at h; cases h
            | fuelOut => rw [hd] at h; cases h
            | ok q =>
              obtain ⟨ms, st3⟩ := q
              rw [hd] at h
              dsimp only at h
              rw [inj h]
              exact dictMeetAux_completed
                (fun x y s r2 s2 he => ih false vm x y s r2 s2 he) hd
      | union ys => exact ih mode vm (.union ys) (.inst mro mems nm) st r st2 h
      | func args2 ret2 nm2 =>
        cases mode with
        | true => exact inj h
        | false => exact inj h
      | obj => exact ih mode vm .obj (.inst mro mems nm) st r st2 h
      | nothing => exact ih mode vm .nothing (.inst mro mems nm) st r st2 h
      | dynamic => exact ih mode vm .dynamic (.inst mro mems nm) st r st2 h
      | const vs2 vt2 => exact ih mode vm (.inst mro mems nm) vt2 st r st2 h
      | var i =>
        cases mode with
        | true => exact nvSupF_completed h
        | false => exact nvSubF_completed h
    | const vs vt =>
      cases b with
      | const vs2 vt2 =>
        cases mode with
        | true =>
          exact mkConstantAux_completed
            (fun x y s r2 s2 he => ih true vm x y s r2 s2 he) h
        | false =>
          dsimp only [latOp] at h
          by_cases hc : (!(List.filter (fun x => vs2.contains x) vs).isEmpty)
              = true
          · rw [if_pos hc] at h
            exact mkConstantAux_completed
              (fun x y s r2 s2 he => ih true vm x y s r2 s2 he) h
          · rw [if_neg hc] at h
            exact ih false vm vt vt2 st r st2 h
      | obj => exact ih mode vm vt .obj st r st2 h
      | nothing => exact ih mode vm vt .nothing st r st2 h
      | dynamic => exact ih mode vm vt .dynamic st r st2 h
      | func a2 r2 n2 => exact ih mode vm vt (.func a2 r2 n2) st r st2 h
      | inst m2 me2 n2 => exact ih mode vm vt (.inst m2 me2 n2) st r st2 h
      | union ys => exact ih mode vm vt (.union ys) st r st2 h
      | var i => exact ih mode vm vt (.var i) st r st2 h

theorem discardConstraint_completed (st : Store) (c : Constraint) :
    (discardConstraint st c).completed_constraints =
      st.completed_constraints := rfl

theorem jsbInner_completed {fu : Nat} {vm : VM} {varId : Nat} :
    ∀ {cs : List Constraint} {sb : Ty} {st : Store} {r : Ty} {st2 : Store},
    jsbInner fu vm varId cs sb st = .ok (r, st2) →
    st2.completed_constraints = st.completed_constraints
  | [], sb, st, r, st2, h => by
    simp only [jsbInner, PyResult.ok.injEq, Prod.mk.injEq] at h
    rw [← h.2]
  | c :: rest, sb, st, r, st2, h => by
    simp only [jsbInner] at h
    split at h
    · cases hj : tyJoin fu vm sb c.left st with
      | exn e => rw [hj] at h; cases h
      | fuelOut => rw [hj] at h; cases h
      | ok p =>
        obtain ⟨sb2, st3⟩ := p
        rw [hj] at h
        dsimp only at h
        rw [jsbInner_completed h, discardConstraint_completed,
          latOp_completed fu true vm sb c.left st sb2 st3 hj]
    · exact jsbInner_completed h

theorem jsbOuter_completed {fu : Nat} {vm : VM} {origC : List Constraint} :
    ∀ {vs : List Nat} {st : Store} {st2 : Store},
    jsbOuter fu vm origC vs st = .ok st2 →
    st2.completed_constraints = st.completed_constraints
  | [], st, st2, h => by
    simp only [jsbOuter, PyResult.ok.injEq] at h
    rw [← h]
  | v :: rest, st, st2, h => by
    simp only [jsbOuter] at h
    split at h
    · rename_i p st3 heq
      rw [jsbOuter_completed h]
      split
      · exact jsbInner_completed heq
      · rw [constrainSupertype_completed]
        exact jsbInner_completed heq
    · cases h
    · cases h

/-- Claim C5, counterexample: with two concrete lower bounds
`F1 = Function([], Object)` and `F2 = Function([], Nothing)` on a
variable, `join_sub_bounds` removes both bound constraints from the
active set with `set.discard`, adds only the joined bound `F1 <: T1`,
and leaves the completed set empty — the replaced constraint `F2 <: T1`
is in neither set.  `meet_super_bounds` on the dual store retires both
replaced bounds into the completed set, showing the asymmetry the claim
denies. -/
theorem C5_join_sub_bounds_discards_without_completing :
    joinSubBounds 10 vmEmpty
        ⟨[⟨.subtype, .func .nil .obj none, .var 1⟩,
          ⟨.subtype, .func .nil .nothing none, .var 1⟩], [], [1], 2⟩ =
      .ok (true, ⟨[⟨.subtype, .func .nil .obj none, .var 1⟩], [], [1], 2⟩) ∧
    cMem ⟨.subtype, .func .nil .nothing none, .var 1⟩
        [(⟨.subtype, .func .nil .obj none, .var 1⟩ : Constraint)] = false ∧
    meetSuperBounds 10 vmEmpty
        ⟨[⟨.subtype, .var 1, .func .nil .obj none⟩,
          ⟨.subtype, .var 1, .func .nil .nothing none⟩], [], [1], 2⟩ =
      .ok (true,
        ⟨[⟨.subtype, .var 1, .func .nil .nothing none⟩],
         [⟨.subtype, .var 1, .func .nil .obj none⟩,
          ⟨.subtype, .var 1, .func .nil .nothing none⟩], [1], 2⟩) :=
  ⟨rfl, rfl, rfl⟩

/-- Claim C5, amended: `join_sub_bounds` replaces the lower-bound
constraints of each variable by the single joined bound but never adds
anything to the completed set — for every store, the completed set after
a successful `join_sub_bounds` is exactly what it was before (unlike
`meet_super_bounds`, which retires replaced bounds via
`_complete_constraint`, as the counterexample shows). -/
theorem C5_join_sub_bounds_preserves_completed (fu : Nat) (vm : VM)
    (st : Store) (changed : Bool) (st2 : Store)
    (h : joinSubBounds fu vm st = .ok (changed, st2)) :
    st2.completed_constraints = st.completed_constraints := by
  unfold joinSubBounds at h
  dsimp only at h
  cases ho : jsbOuter fu vm st.constraints st.varRegistry st with
  | exn e => rw [ho] at h; cases h
  | fuelOut => rw [ho] at h; cases h
  | ok st3 =>
    rw [ho] at h
    dsimp only at h
    simp only [PyResult.ok.injEq, Prod.mk.injEq] at h
    rw [← h.2]
    exact jsbOuter_completed ho

/-- Witness for the amended C5 on the counterexample store. -/
theorem C5_join_sub_bounds_preserves_completed_witness :
    (⟨[⟨.subtype, .func .nil .obj none, .var 1⟩], [], [1], 2⟩ :
        Store).completed_constraints =
      (⟨[⟨.subtype, .func .nil .obj none, .var 1⟩,
         ⟨.subtype, .func .nil .nothing none, .var 1⟩], [], [1], 2⟩ :
        Store).completed_constraints :=
  C5_join_sub_bounds_preserves_completed 10 vmEmpty
    ⟨[⟨.subtype, .func .nil .obj none, .var 1⟩,
      ⟨.subtype, .func .nil .nothing none, .var 1⟩], [], [1], 2⟩
    true ⟨[⟨.subtype, .func .nil .obj none, .var 1⟩], [], [1], 2⟩ rfl

theorem resLookup_assign_self : ∀ (m : ResMap) (k : Nat) (v : Ty × Ty),
    resLookup (resAssign m k v) k = some v
  | [], k, v => by simp [resAssign, resLookup]
  | (k2, v2) :: rest, k, v => by
    by_cases hk : k2 = k
    · subst hk; simp [resAssign, resLookup]
    · simp only [resAssign, hk, if_false]
      simp only [resLookup, hk, if_false]
      exact resLookup_assign_self rest k v

theorem resLookup_assign_other : ∀ (m : ResMap) (k j : Nat) (v : Ty × Ty),
    j ≠ k → resLookup (resAssign m k v) j = resLookup m j
  | [], k, j, v, hj => by simp [resAssign, resLookup, Ne.symm hj]
  | (k2, v2) :: rest, k, j, v, hj => by
    by_cases hk : k2 = k
    · subst hk
      simp [resAssign, resLookup, Ne.symm hj]
    · simp only [resAssign, hk, if_false, resLookup]
      by_cases hk2 : k2 = j
      · simp [hk2]
      · simp only [hk2, if_false]
        exact resLookup_assign_other rest k j v hj

theorem resLookup_append_single : ∀ (m : ResMap) (k j : Nat) (v : Ty × Ty),
    j ≠ k → resLookup (m ++ [(k, v)]) j = resLookup m j
  | [], k, j, v, hj => by simp [resLookup, Ne.symm hj]
  | (k2, v2) :: rest, k, j, v, hj => by
    by_cases hk2 : k2 = j
    · simp [resLookup, hk2]
    · simp only [List.cons_append, resLookup, hk2, if_false]
      exact resLookup_append_single rest k j v hj

theorem resSetdefault_lookup_other {m : ResMap} {k j : Nat} {d : Ty × Ty}
    (hj : j ≠ k) : resLookup (resSetdefault m k d).2 j = resLookup m j := by
  unfold resSetdefault
  cases hr : resLookup m k with
  | some v => rfl
  | none => exact resLookup_append_single m k j d hj

/-- Claim C7: decoding a true SAT proposition with exactly one `Variable`
side.  When the variable is the subtype side and the other side is
concrete, its recorded upper bound is met with the concrete side; when
the variable is the supertype side, its lower bound is joined; bounds
start from `(Nothing, Object)` and the fold starts from the empty
mapping. -/
theorem C7_sat_decoding_updates_bounds :
    (∀ (fu : Nat) (vm : VM) (res : ResMap) (st : Store) (i : Nat) (C : Ty)
        (lo up u2 : Ty) (st2 : Store),
      containsVar C = false →
      (resLookup res i).getD (.nothing, .obj) = (lo, up) →
      tyMeet fu vm up C st = .ok (u2, st2) →
      ∃ res2, solveStep fu vm (res, st) (.ineq (.var i) C, some true) =
          .ok (res2, st2) ∧
        resLookup res2 i = some (lo, u2) ∧
        ∀ j, j ≠ i → resLookup res2 j = resLookup res j) ∧
    (∀ (fu : Nat) (vm : VM) (res : ResMap) (st : Store) (i : Nat) (C : Ty)
        (lo up l2 : Ty) (st2 : Store),
      containsVar C = false →
      (resLookup res i).getD (.nothing, .obj) = (lo, up) →
      tyJoin fu vm lo C st = .ok (l2, st2) →
      ∃ res2, solveStep fu vm (res, st) (.ineq C (.var i), some true) =
          .ok (res2, st2) ∧
        resLookup res2 i = some (l2, up) ∧
        ∀ j, j ≠ i → resLookup res2 j = resLookup res j) ∧
    (∀ (fu : Nat) (vm : VM) (entries : List (SatVar × Option Bool))
        (st : Store),
      satSolveDecode fu vm entries st = satSolveFold fu vm entries ([], st)) := by
  refine ⟨?_, ?_, fun _ _ _ _ => rfl⟩
  · intro fu vm res st i C lo up u2 st2 hc hl hm
    have hp1 : (resSetdefault res i (.nothing, .obj)).1 = (lo, up) := by
      unfold resSetdefault
      cases hr : resLookup res i with
      | some v => simpa [hr] using hl
      | none => simpa [hr] using hl
    refine ⟨resAssign (resSetdefault res i (.nothing, .obj)).2 i (lo, u2),
      ?_, ?_, ?_⟩
    · simp only [solveStep]
      rw [if_pos trivial]
      rw [hc]
      simp only [Bool.not_false]
      rw [if_pos trivial, hp1]
      dsimp only
      rw [hm]
      dsimp only
      cases C with
      | var j => simp [containsVar] at hc
      | obj => rfl
      | nothing => rfl
      | dynamic => rfl
      | func args ret nm => rfl
      | inst mro mems nm => rfl
      | union xs => rfl
      | const vs vt => rfl
    · exact resLookup_assign_self _ i (lo, u2)
    · intro j hj
      rw [resLookup_assign_other _ i j (lo, u2) hj]
      exact resSetdefault_lookup_other hj
  · intro fu vm res st i C lo up l2 st2 hc hl hj
    have hp1 : (resSetdefault res i (.nothing, .obj)).1 = (lo, up) := by
      unfold resSetdefault
      cases hr : resLookup res i with
      | some v => simpa [hr] using hl
      | none => simpa [hr] using hl
    refine ⟨resAssign (resSetdefault res i (.nothing, .obj)).2 i (l2, up),
      ?_, ?_, ?_⟩
    · cases C with
      | var j2 => simp [containsVar] at hc
      | obj =>
        simp only [solveStep]
        rw [if_pos trivial]
        rw [hc]
        simp only [Bool.not_false]
        rw [if_pos trivial, hp1]
        dsimp only
        rw [hj]
      | nothing =>
        simp only [solveStep]
        rw [if_pos trivial]
        rw [hc]
        simp only [Bool.not_false]
        rw [if_pos trivial, hp1]
        dsimp only
        rw [hj]
      | dynamic =>
        simp only [solveStep]
        rw [if_pos trivial]
        rw [hc]
        simp only [Bool.not_false]
        rw [if_pos trivial, hp1]
        dsimp only
        rw [hj]
      | func args ret nm =>
        simp only [solveStep]
        rw [if_pos trivial]
        rw [hc]
        simp only [Bool.not_false]
        rw [if_pos trivial, hp1]
        dsimp only
        rw [hj]
      | inst mro mems nm =>
        simp only [solveStep]
        rw [if_pos trivial]
        rw [hc]
        simp only [Bool.not_false]
        rw [if_pos trivial, hp1]
        dsimp only
        rw [hj]
      | union xs =>
        simp only [solveStep]
        rw [if_pos trivial]
        rw [hc]
        simp only [Bool.not_false]
        rw [if_pos trivial, hp1]
        dsimp only
        rw [hj]
      | const vs vt =>
        simp only [solveStep]
        rw [if_pos trivial]
        rw [hc]
        simp only [Bool.not_false]
        rw [if_pos trivial, hp1]
        dsimp only
        rw [hj]
    · exact resLookup_assign_self _ i (l2, up)
    · intro j2 hj2
      rw [resLookup_assign_other _ i j2 (l2, up) hj2]
      exact resSetdefault_lookup_other hj2

theorem C7_sat_decoding_witness :
    (∃ res2, solveStep 3 vmEmpty ([], storeEmpty)
        (.ineq (.var 5) (.inst .nil .nil none), some true) =
          .ok (res2, storeEmpty) ∧
      resLookup res2 5 = some (.nothing, .inst .nil .nil none) ∧
      ∀ j, j ≠ 5 → resLookup res2 j = resLookup ([] : ResMap) j) :=
  (C7_sat_decoding_updates_bounds.1 3 vmEmpty [] storeEmpty 5
    (.inst .nil .nil none) .nothing .obj (.inst .nil .nil none) storeEmpty
    rfl rfl rfl)
theorem mem_setInsertTy {acc : List Ty} {t x : Ty}
    (h : x ∈ setInsertTy acc t) : x ∈ acc ∨ x = t := by
  unfold setInsertTy at h
  by_cases hm : pyMemL t acc = true
  · rw [if_pos hm] at h
    exact Or.inl h
  · rw [if_neg hm] at h
    rcases List.mem_append.mp h with h | h
    · exact Or.inl h
    · exact Or.inr (List.mem_singleton.mp h)

theorem mem_foldl_setInsertTy : ∀ {l acc : List Ty} {x : Ty},
    x ∈ l.foldl setInsertTy acc → x ∈ acc ∨ x ∈ l
  | [], acc, x, h => Or.inl h
  | t :: rest, acc, x, h => by
    rcases mem_foldl_setInsertTy (l := rest) h with h2 | h2
    · rcases mem_setInsertTy h2 with h3 | h3
      · exact Or.inl h3
      · exact Or.inr (h3 ▸ List.mem_cons_self t rest)
    · exact Or.inr (List.mem_cons_of_mem t h2)

theorem mem_flattenStep {acc : List Ty} {t x : Ty}
    (h : x ∈ flattenStep acc t) :
    x ∈ acc ∨ (x = t ∧ t.isUnion = false) ∨
      ∃ ys, t = .union ys ∧ x ∈ TyList.toList ys := by
  cases t with
  | union ys =>
    rcases mem_foldl_setInsertTy h with h2 | h2
    · exact Or.inl h2
    · exact Or.inr (Or.inr ⟨ys, rfl, h2⟩)
  | obj =>
    rcases mem_setInsertTy h with h2 | h2
    · exact Or.inl h2
    · exact Or.inr (Or.inl ⟨h2, rfl⟩)
  | nothing =>
    rcases mem_setInsertTy h with h2 | h2
    · exact Or.inl h2
    · exact Or.inr (Or.inl ⟨h2, rfl⟩)
  | dynamic =>
    rcases mem_setInsertTy h with h2 | h2
    · exact Or.inl h2
    · exact Or.inr (Or.inl ⟨h2, rfl⟩)
  | func args ret nm =>
    rcases mem_setInsertTy h with h2 | h2
    · exact Or.inl h2
    · exact Or.inr (Or.inl ⟨h2, rfl⟩)
  | inst mro mems nm =>
    rcases mem_setInsertTy h with h2 | h2
    · exact Or.inl h2
    · exact Or.inr (Or.inl ⟨h2, rfl⟩)
  | const vs vt =>
    rcases mem_setInsertTy h with h2 | h2
    · exact Or.inl h2
    · exact Or.inr (Or.inl ⟨h2, rfl⟩)
  | var i =>
    rcases mem_setInsertTy h with h2 | h2
    · exact Or.inl h2
    · exact Or.inr (Or.inl ⟨h2, rfl⟩)

theorem mem_foldl_flattenStep : ∀ {l acc : List Ty} {x : Ty},
    x ∈ l.foldl flattenStep acc →
    x ∈ acc ∨ (∃ t ∈ l, x = t ∧ t.isUnion = false) ∨
      ∃ ys, Ty.union ys ∈ l ∧ x ∈ TyList.toList ys
  | [], acc, x, h => Or.inl h
  | t :: rest, acc, x, h => by
    rcases mem_foldl_flattenStep (l := rest) h with h2 | h2 | h2
    · rcases mem_flattenStep h2 with h3 | h3 | h3
      · exact Or.inl h3
      · exact Or.inr (Or.inl ⟨t, List.mem_cons_self t rest, h3⟩)
      · obtain ⟨ys, hty, hmem⟩ := h3
        exact Or.inr (Or.inr ⟨ys, hty ▸ List.mem_cons_self t rest, hmem⟩)
    · obtain ⟨u, hu, hx⟩ := h2
      exact Or.inr (Or.inl ⟨u, List.mem_cons_of_mem t hu, hx⟩)
    · obtain ⟨ys, hys, hmem⟩ := h2
      exact Or.inr (Or.inr ⟨ys, List.mem_cons_of_mem t hys, hmem⟩)

theorem mem_flattenSubtypes {l : List Ty} {x : Ty}
    (h : x ∈ flattenSubtypes l) :
    (∃ t ∈ l, x = t ∧ t.isUnion = false) ∨
      ∃ ys, Ty.union ys ∈ l ∧ x ∈ TyList.toList ys := by
  rcases mem_foldl_flattenStep h with h2 | h2 | h2
  · exact absurd h2 (List.not_mem_nil x)
  · exact Or.inl h2
  · exact Or.inr h2

theorem distinct_setInsertTy {acc : List Ty} (hd : distinctList acc)
    (t : Ty) : distinctList (setInsertTy acc t) := by
  unfold setInsertTy
  by_cases hm : pyMemL t acc = true
  · rw [if_pos hm]; exact hd
  · rw [if_neg hm]
    unfold distinctList at *
    rw [List.pairwise_append]
    refine ⟨hd, List.pairwise_singleton _ _, ?_⟩
    intro a ha b hb
    rw [List.mem_singleton] at hb
    subst hb
    unfold pyMemL at hm
    rw [Bool.not_eq_true, List.any_eq_false] at hm
    exact Bool.eq_false_iff.mpr (hm a ha)

theorem distinct_foldl_setInsertTy : ∀ (l : List Ty) {acc : List Ty},
    distinctList acc → distinctList (l.foldl setInsertTy acc)
  | [], _, h => h
  | t :: rest, acc, h =>
    distinct_foldl_setInsertTy rest (distinct_setInsertTy h t)

theorem distinct_flattenStep {acc : List Ty} (hd : distinctList acc)
    (t : Ty) : distinctList (flattenStep acc t) := by
  cases t with
  | union ys => exact distinct_foldl_setInsertTy _ hd
  | obj => exact distinct_setInsertTy hd _
  | nothing => exact distinct_setInsertTy hd _
  | dynamic => exact distinct_setInsertTy hd _
  | func args ret nm => exact distinct_setInsertTy hd _
  | inst mro mems nm => exact distinct_setInsertTy hd _
  | const vs vt => exact distinct_setInsertTy hd _
  | var i => exact distinct_setInsertTy hd _

theorem distinct_foldl_flattenStep : ∀ (l : List Ty) {acc : List Ty},
    distinctList acc → distinctList (l.foldl flattenStep acc)
  | [], _, h => h
  | t :: rest, acc, h =>
    distinct_foldl_flattenStep rest (distinct_flattenStep h t)

theorem distinct_flattenSubtypes (l : List Ty) :
    distinctList (flattenSubtypes l) :=
  distinct_foldl_flattenStep l List.Pairwise.nil

theorem pyMemL_setInsertTy_mono {acc : List Ty} {x : Ty} (t : Ty)
    (h : pyMemL x acc = true) : pyMemL x (setInsertTy acc t) = true := by
  unfold setInsertTy
  by_cases hm : pyMemL t acc = true
  · rw [if_pos hm]; exact h
  · rw [if_neg hm]
    unfold pyMemL at *
    rw [List.any_append, h, Bool.true_or]

theorem pyMemL_setInsertTy_self {acc : List Ty} {t : Ty}
    (ht : pyEq t t = true) : pyMemL t (setInsertTy acc t) = true := by
  unfold setInsertTy
  by_cases hm : pyMemL t acc = true
  · rw [if_pos hm]; exact hm
  · rw [if_neg hm]
    unfold pyMemL
    rw [List.any_append]
    have : [t].any (fun u => pyEq t u) = true := by
      rw [List.any_cons, List.any_nil, ht, Bool.true_or]
    rw [this, Bool.or_true]

theorem pyMemL_foldl_setInsertTy_mono : ∀ (l : List Ty) {acc : List Ty}
    {x : Ty}, pyMemL x acc = true → pyMemL x (l.foldl setInsertTy acc) = true
  | [], _, _, h => h
  | t :: rest, acc, x, h =>
    pyMemL_foldl_setInsertTy_mono rest (pyMemL_setInsertTy_mono t h)

theorem pyMemL_flattenStep_mono {acc : List Ty} {x : Ty} (t : Ty)
    (h : pyMemL x acc = true) : pyMemL x (flattenStep acc t) = true := by
  cases t with
  | union ys => exact pyMemL_foldl_setInsertTy_mono _ h
  | obj => exact pyMemL_setInsertTy_mono _ h
  | nothing => exact pyMemL_setInsertTy_mono _ h
  | dynamic => exact pyMemL_setInsertTy_mono _ h
  | func args ret nm => exact pyMemL_setInsertTy_mono _ h
  | inst mro mems nm => exact pyMemL_setInsertTy_mono _ h
  | const vs vt => exact pyMemL_setInsertTy_mono _ h
  | var i => exact pyMemL_setInsertTy_mono _ h

theorem pyMemL_foldl_flattenStep_mono : ∀ (l : List Ty) {acc : List Ty}
    {x : Ty}, pyMemL x acc = true → pyMemL x (l.foldl flattenStep acc) = true
  | [], _, _, h => h
  | t :: rest, acc, x, h =>
    pyMemL_foldl_flattenStep_mono rest (pyMemL_flattenStep_mono t h)

theorem pyMemL_foldl_setInsertTy_self : ∀ (l : List Ty) {acc : List Ty}
    {y : Ty}, y ∈ l → pyEq y y = true →
    pyMemL y (l.foldl setInsertTy acc) = true
  | [], _, _, h, _ => absurd h (List.not_mem_nil _)
  | t :: rest, acc, y, h, hy => by
    rcases List.mem_cons.mp h with h2 | h2
    · subst h2
      exact pyMemL_foldl_setInsertTy_mono rest (pyMemL_setInsertTy_self hy)
    · exact pyMemL_foldl_setInsertTy_self rest h2 hy

theorem pyMemL_foldl_flattenStep_self : ∀ (l : List Ty) {acc : List Ty}
    {t : Ty}, t ∈ l → t.isUnion = false → pyEq t t = true →
    pyMemL t (l.foldl flattenStep acc) = true
  | [], _, _, h, _, _ => absurd h (List.not_mem_nil _)
  | u :: rest, acc, t, h, hnu, ht => by
    rcases List.mem_cons.mp h with h2 | h2
    · subst h2
      refine pyMemL_foldl_flattenStep_mono rest ?_
      cases t with
      | union ys => simp [Ty.isUnion] at hnu
      | obj => exact pyMemL_setInsertTy_self ht
      | nothing => exact pyMemL_setInsertTy_self ht
      | dynamic => exact pyMemL_setInsertTy_self ht
      | func args ret nm => exact pyMemL_setInsertTy_self ht
      | inst mro mems nm => exact pyMemL_setInsertTy_self ht
      | const vs vt => exact pyMemL_setInsertTy_self ht
      | var i => exact pyMemL_setInsertTy_self ht
    · exact pyMemL_foldl_flattenStep_self rest h2 hnu ht

theorem pyMemL_foldl_flattenStep_union : ∀ (l : List Ty) {acc : List Ty}
    {ys : TyList} {y : Ty}, Ty.union ys ∈ l → y ∈ TyList.toList ys →
    pyEq y y = true → pyMemL y (l.foldl flattenStep acc) = true
  | [], _, _, _, h, _, _ => absurd h (List.not_mem_nil _)
  | u :: rest, acc, ys, y, h, hy, heq => by
    rcases List.mem_cons.mp h with h2 | h2
    · subst h2
      exact pyMemL_foldl_flattenStep_mono rest
        (pyMemL_foldl_setInsertTy_self _ hy heq)
    · exact pyMemL_foldl_flattenStep_union rest h2 hy heq

theorem pyWf_union_inv {xs : TyList} (h : PyWf (.union xs)) :
    (∀ t ∈ xs.toList, PyWf t) ∧ (∀ t ∈ xs.toList, t.isUnion = false) ∧
    distinctList xs.toList ∧ 2 ≤ xs.toList.length := by
  cases h with
  | union h1 h2 h3 h4 => exact ⟨h1, h2, h3, h4⟩

theorem flattenSubtypes_nonunion {l : List Ty}
    (hw : ∀ t ∈ l, PyWf t) :
    ∀ x ∈ flattenSubtypes l, x.isUnion = false := by
  intro x hx
  rcases mem_flattenSubtypes hx with ⟨t, _, hxt, hnu⟩ | ⟨ys, hys, hmem⟩
  · exact hxt ▸ hnu
  · exact (pyWf_union_inv (hw _ hys)).2.1 x hmem

theorem flattenSubtypes_wf {l : List Ty} (hw : ∀ t ∈ l, PyWf t) :
    ∀ x ∈ flattenSubtypes l, PyWf x := by
  intro x hx
  rcases mem_flattenSubtypes hx with ⟨t, htl, hxt, _⟩ | ⟨ys, hys, hmem⟩
  · exact hxt ▸ hw t htl
  · exact (pyWf_union_inv (hw _ hys)).1 x hmem
/-- Claim C3: `Union.__new__` normalises its member set.  Flattening
splices `Union` arguments into their elements and keeps non-`Union`
arguments (and nothing else); an empty flattened set yields `Nothing`; a
singleton flattened set yields its element; and a surviving `Union` has
at least two members, none of which is a `Union`, pairwise distinct
under Python `==`. -/
theorem C3_union_construction_normalises :
    mkUnion [] = Ty.nothing ∧
    (∀ (S : List Ty) (t : Ty), flattenSubtypes S = [t] → mkUnion S = t) ∧
    (∀ (S : List Ty) (x : Ty), x ∈ flattenSubtypes S →
      (∃ t ∈ S, x = t ∧ t.isUnion = false) ∨
        ∃ ys, Ty.union ys ∈ S ∧ x ∈ TyList.toList ys) ∧
    (∀ (S : List Ty) (t : Ty), t ∈ S → PyWf t → t.isUnion = false →
      pyMemL t (flattenSubtypes S) = true) ∧
    (∀ (S : List Ty) (ys : TyList) (y : Ty), Ty.union ys ∈ S →
      y ∈ TyList.toList ys → PyWf y →
      pyMemL y (flattenSubtypes S) = true) ∧
    (∀ (S : List Ty) (ys : TyList), (∀ t ∈ S, PyWf t) →
      mkUnion S = .union ys →
      2 ≤ (TyList.toList ys).length ∧
      (∀ y ∈ TyList.toList ys, y.isUnion = false) ∧
      distinctList (TyList.toList ys)) := by
  refine ⟨rfl, ?_, ?_, ?_, ?_, ?_⟩
  · intro S t hflat
    unfold mkUnion
    rw [hflat]
  · intro S x hx
    exact mem_flattenSubtypes hx
  · intro S t htS hwf hnu
    exact pyMemL_foldl_flattenStep_self S htS hnu (pyEq_refl hwf)
  · intro S ys y hyS hy hwf
    exact pyMemL_foldl_flattenStep_union S hyS hy (pyEq_refl hwf)
  · intro S ys hw hmk
    unfold mkUnion at hmk
    cases hflat : flattenSubtypes S with
    | nil =>
      rw [hflat] at hmk
      exact absurd hmk (fun h => Ty.noConfusion h)
    | cons a tail =>
      cases tail with
      | nil =>
        rw [hflat] at hmk
        dsimp only at hmk
        have ha : a ∈ flattenSubtypes S := by
          rw [hflat]; exact List.mem_singleton.mpr rfl
        have := flattenSubtypes_nonunion hw a ha
        rw [hmk] at this
        simp [Ty.isUnion] at this
      | cons b rest =>
        rw [hflat] at hmk
        dsimp only at hmk
        have hys : ys = TyList.ofList (a :: b :: rest) := by
          cases hmk; rfl
        subst hys
        rw [toList_ofList]
        refine ⟨by simp, ?_, ?_⟩
        · intro y hy
          refine flattenSubtypes_nonunion hw y ?_
          rw [hflat]; exact hy
        · rw [← hflat]
          exact distinct_flattenSubtypes S
/-- Witness for C3: a union argument is spliced and the surviving union
is canonical. -/
theorem C3_union_construction_normalises_witness :
    2 ≤ (TyList.toList (TyList.cons Ty.obj (TyList.cons Ty.nothing TyList.nil))).length ∧
    (∀ y ∈ TyList.toList (TyList.cons Ty.obj (TyList.cons Ty.nothing TyList.nil)),
      y.isUnion = false) ∧
    distinctList (TyList.toList (TyList.cons Ty.obj (TyList.cons Ty.nothing TyList.nil))) :=
  C3_union_construction_normalises.2.2.2.2.2
    [Ty.obj, Ty.union (.cons Ty.nothing (.cons Ty.obj .nil))]
    (.cons Ty.obj (.cons Ty.nothing .nil))
    (by
      intro t ht
      rcases List.mem_cons.mp ht with h | h
      · subst h; exact PyWf.obj
      · rw [List.mem_singleton] at h
        subst h
        refine PyWf.union ?_ (by decide) (by unfold distinctList; decide) (by decide)
        intro u hu
        simp only [TyList.toList] at hu
        rcases List.mem_cons.mp hu with h2 | h2
        · subst h2; exact PyWf.nothing
        · rw [List.mem_singleton] at h2; subst h2; exact PyWf.obj)
    rfl
theorem ofList_toList : ∀ (xs : TyList), TyList.ofList (TyList.toList xs) = xs
  | .nil => rfl
  | .cons h t => by
    show TyList.cons h (TyList.ofList (TyList.toList t)) = TyList.cons h t
    rw [ofList_toList t]

theorem lookupSubst_some_mem : ∀ {m : List (Nat × Ty)} {i : Nat} {u : Ty},
    lookupSubst m i = some u → (i, u) ∈ m
  | [], i, u, h => by cases h
  | (k, t) :: rest, i, u, h => by
    simp only [lookupSubst] at h
    by_cases hk : k = i
    · rw [if_pos hk] at h
      cases h
      exact hk ▸ List.mem_cons_self _ _
    · rw [if_neg hk] at h
      exact List.mem_cons_of_mem _ (lookupSubst_some_mem h)

theorem lookupSubst_none_not_mem : ∀ {m : List (Nat × Ty)} {i : Nat},
    lookupSubst m i = none → i ∉ m.map Prod.fst
  | [], i, _ => List.not_mem_nil i
  | (k, t) :: rest, i, h => by
    simp only [lookupSubst] at h
    by_cases hk : k = i
    · rw [if_pos hk] at h; cases h
    · rw [if_neg hk] at h
      intro hmem
      rcases List.mem_cons.mp hmem with h2 | h2
      · exact hk h2.symm
      · exact lookupSubst_none_not_mem h h2

theorem lookupSubst_not_mem_none : ∀ {m : List (Nat × Ty)} {i : Nat},
    i ∉ m.map Prod.fst → lookupSubst m i = none
  | [], i, _ => rfl
  | (k, t) :: rest, i, h => by
    simp only [List.map_cons, List.mem_cons] at h
    push_neg at h
    have hk : k ≠ i := fun he => h.1 he.symm
    simp only [lookupSubst, if_neg hk]
    exact lookupSubst_not_mem_none h.2

theorem toList_substTyList : ∀ (m : List (Nat × Ty)) (xs : TyList),
    TyList.toList (substTyList m xs) = (TyList.toList xs).map (substTy m)
  | m, .nil => rfl
  | m, .cons h t => by
    show substTy m h :: TyList.toList (substTyList m t) =
      (h :: TyList.toList t).map (substTy m)
    rw [List.map_cons, toList_substTyList]

theorem dictKeys_substMembers : ∀ (m : List (Nat × Ty)) (ms : Members),
    dictKeys (substMembers m ms) = dictKeys ms
  | m, .nil => rfl
  | m, .cons k v t => by
    show k :: dictKeys (substMembers m t) = k :: dictKeys t
    rw [dictKeys_substMembers]

theorem memVals_substMembers : ∀ (m : List (Nat × Ty)) (ms : Members),
    memVals (substMembers m ms) = (memVals ms).map (substTy m)
  | m, .nil => rfl
  | m, .cons k v t => by
    show substTy m v :: memVals (substMembers m t) =
      (((k, v) :: t.toPairs).map Prod.snd).map (substTy m)
    rw [List.map_cons, List.map_cons, memVals_substMembers]
    rfl

theorem tyListHasDomVar_eq_any : ∀ (dom : List Nat) (xs : TyList),
    tyListHasDomVar dom xs = (TyList.toList xs).any (hasDomVar dom)
  | dom, .nil => rfl
  | dom, .cons h t => by
    show (hasDomVar dom h || tyListHasDomVar dom t) =
      (h :: TyList.toList t).any (hasDomVar dom)
    rw [List.any_cons, tyListHasDomVar_eq_any]

theorem membersHasDomVar_eq_any : ∀ (dom : List Nat) (ms : Members),
    membersHasDomVar dom ms = (memVals ms).any (hasDomVar dom)
  | dom, .nil => rfl
  | dom, .cons k v t => by
    show (hasDomVar dom v || membersHasDomVar dom t) =
      (((k, v) :: t.toPairs).map Prod.snd).any (hasDomVar dom)
    rw [List.map_cons, List.any_cons, membersHasDomVar_eq_any]
    rfl

theorem flattenStep_nonunion {acc : List Ty} {t : Ty}
    (h : t.isUnion = false) : flattenStep acc t = setInsertTy acc t := by
  cases t with
  | union ys => simp [Ty.isUnion] at h
  | obj => rfl
  | nothing => rfl
  | dynamic => rfl
  | func args ret nm => rfl
  | inst mro mems nm => rfl
  | const vs vt => rfl
  | var i => rfl

theorem foldl_flattenStep_canonical : ∀ (l : List Ty) (acc : List Ty),
    (∀ t ∈ l, t.isUnion = false) →
    (∀ t ∈ l, ∀ a ∈ acc, pyEq t a = false) →
    l.Pairwise (fun a b => pyEq b a = false) →
    l.foldl flattenStep acc = acc ++ l
  | [], acc, _, _, _ => (List.append_nil acc).symm
  | t :: rest, acc, hnu, hnm, hpw => by
    have ht : t.isUnion = false := hnu t (List.mem_cons_self t rest)
    have hmem : pyMemL t acc = false := by
      unfold pyMemL
      rw [List.any_eq_false]
      intro a ha
      simp [hnm t (List.mem_cons_self t rest) a ha]
    rw [List.foldl_cons, flattenStep_nonunion ht]
    unfold setInsertTy
    rw [hmem, if_neg Bool.false_ne_true]
    rw [List.pairwise_cons] at hpw
    rw [foldl_flattenStep_canonical rest (acc ++ [t])
      (fun u hu => hnu u (List.mem_cons_of_mem t hu))
      (fun u hu a ha => by
        rcases List.mem_append.mp ha with h2 | h2
        · exact hnm u (List.mem_cons_of_mem t hu) a h2
        · rw [List.mem_singleton] at h2
          exact h2 ▸ hpw.1 u hu)
      hpw.2]
    rw [List.append_assoc]
    rfl

theorem flattenSubtypes_canonical {l : List Ty}
    (hnu : ∀ t ∈ l, t.isUnion = false)
    (hpw : l.Pairwise (fun a b => pyEq b a = false)) :
    flattenSubtypes l = l := by
  unfold flattenSubtypes
  rw [foldl_flattenStep_canonical l [] hnu (fun t _ a ha => absurd ha (List.not_mem_nil a)) hpw]
  rfl

theorem mkUnion_canonical {xs : TyList} (hw : PyWf (.union xs)) :
    mkUnion (TyList.toList xs) = .union xs := by
  obtain ⟨_, hnu, hdist, hlen⟩ := pyWf_union_inv hw
  unfold mkUnion
  rw [flattenSubtypes_canonical hnu hdist]
  cases hxs : TyList.toList xs with
  | nil => rw [hxs] at hlen; simp at hlen
  | cons a tail =>
    cases tail with
    | nil => rw [hxs] at hlen; simp at hlen
    | cons b rest =>
      dsimp only
      rw [← hxs, ofList_toList]

theorem mkUnion_wf {l : List Ty} (hw : ∀ t ∈ l, PyWf t) :
    PyWf (mkUnion l) := by
  unfold mkUnion
  cases hflat : flattenSubtypes l with
  | nil => exact PyWf.nothing
  | cons a tail =>
    cases tail with
    | nil =>
      dsimp only
      exact flattenSubtypes_wf hw a (by rw [hflat]; exact List.mem_cons_self _ _)
    | cons b rest =>
      dsimp only
      refine PyWf.union ?_ ?_ ?_ ?_
      · intro t ht
        rw [toList_ofList] at ht
        exact flattenSubtypes_wf hw t (by rw [hflat]; exact ht)
      · intro t ht
        rw [toList_ofList] at ht
        exact flattenSubtypes_nonunion hw t (by rw [hflat]; exact ht)
      · rw [toList_ofList, ← hflat]
        exact distinct_flattenSubtypes l
      · rw [toList_ofList]
        simp
theorem flattenSubtypes_noDom {dom : List Nat} {l : List Ty}
    (h : ∀ x ∈ l, hasDomVar dom x = false) :
    ∀ x ∈ flattenSubtypes l, hasDomVar dom x = false := by
  intro x hx
  rcases mem_flattenSubtypes hx with ⟨t, htl, hxt, _⟩ | ⟨ys, hys, hmem⟩
  · exact hxt ▸ h t htl
  · have hu := h (.union ys) hys
    show hasDomVar dom x = false
    have : tyListHasDomVar dom ys = false := hu
    rw [tyListHasDomVar_eq_any, List.any_eq_false] at this
    exact Bool.eq_false_iff.mpr (this x hmem)

theorem mkUnion_noDom {dom : List Nat} {l : List Ty}
    (h : ∀ x ∈ l, hasDomVar dom x = false) :
    hasDomVar dom (mkUnion l) = false := by
  unfold mkUnion
  cases hflat : flattenSubtypes l with
  | nil => rfl
  | cons a tail =>
    cases tail with
    | nil =>
      dsimp only
      exact flattenSubtypes_noDom h a (by rw [hflat]; exact List.mem_cons_self _ _)
    | cons b rest =>
      dsimp only
      show tyListHasDomVar dom (TyList.ofList (a :: b :: rest)) = false
      rw [tyListHasDomVar_eq_any, toList_ofList, List.any_eq_false]
      intro x hx
      have := flattenSubtypes_noDom h x (by rw [hflat]; exact hx)
      simp [this]

mutual
theorem substTy_noDomVar : ∀ (m : List (Nat × Ty)),
    (∀ p ∈ m, hasDomVar (m.map Prod.fst) p.2 = false) →
    ∀ (t : Ty), hasDomVar (m.map Prod.fst) (substTy m t) = false
  | m, hcod, .obj => rfl
  | m, hcod, .nothing => rfl
  | m, hcod, .dynamic => rfl
  | m, hcod, .const vs vt => rfl
  | m, hcod, .var i => by
    show hasDomVar (m.map Prod.fst) ((lookupSubst m i).getD (.var i)) = false
    cases hl : lookupSubst m i with
    | none =>
      show decide (i ∈ m.map Prod.fst) = false
      exact decide_eq_false (lookupSubst_none_not_mem hl)
    | some u => exact hcod (i, u) (lookupSubst_some_mem hl)
  | m, hcod, .func args ret nm => by
    show (tyListHasDomVar (m.map Prod.fst) (substTyList m args) ||
      hasDomVar (m.map Prod.fst) (substTy m ret)) = false
    rw [substTyList_noDomVar m hcod args, substTy_noDomVar m hcod ret]
    rfl
  | m, hcod, .inst mro mems nm => by
    show membersHasDomVar (m.map Prod.fst) (substMembers m mems) = false
    exact substMembers_noDomVar m hcod mems
  | m, hcod, .union xs => by
    show hasDomVar (m.map Prod.fst)
      (mkUnion (TyList.toList (substTyList m xs))) = false
    refine mkUnion_noDom ?_
    intro x hx
    have h2 := substTyList_noDomVar m hcod xs
    rw [tyListHasDomVar_eq_any, List.any_eq_false] at h2
    exact Bool.eq_false_iff.mpr (h2 x hx)

theorem substTyList_noDomVar : ∀ (m : List (Nat × Ty)),
    (∀ p ∈ m, hasDomVar (m.map Prod.fst) p.2 = false) →
    ∀ (xs : TyList), tyListHasDomVar (m.map Prod.fst) (substTyList m xs) = false
  | m, hcod, .nil => rfl
  | m, hcod, .cons h t => by
    show (hasDomVar (m.map Prod.fst) (substTy m h) ||
      tyListHasDomVar (m.map Prod.fst) (substTyList m t)) = false
    rw [substTy_noDomVar m hcod h, substTyList_noDomVar m hcod t]
    rfl

theorem substMembers_noDomVar : ∀ (m : List (Nat × Ty)),
    (∀ p ∈ m, hasDomVar (m.map Prod.fst) p.2 = false) →
    ∀ (ms : Members), membersHasDomVar (m.map Prod.fst) (substMembers m ms) = false
  | m, hcod, .nil => rfl
  | m, hcod, .cons k v t => by
    show (hasDomVar (m.map Prod.fst) (substTy m v) ||
      membersHasDomVar (m.map Prod.fst) (substMembers m t)) = false
    rw [substTy_noDomVar m hcod v, substMembers_noDomVar m hcod t]
    rfl
end

theorem substTyList_fix_of : ∀ {m : List (Nat × Ty)} {xs : TyList},
    (∀ t ∈ TyList.toList xs, substTy m t = t) → substTyList m xs = xs
  | m, .nil, _ => rfl
  | m, .cons h t, hp => by
    show TyList.cons (substTy m h) (substTyList m t) = TyList.cons h t
    rw [hp h (show h ∈ h :: TyList.toList t from List.mem_cons_self _ _)]
    rw [substTyList_fix_of (fun u hu =>
      hp u (show u ∈ h :: TyList.toList t from List.mem_cons_of_mem _ hu))]

theorem substMembers_fix_of : ∀ {m : List (Nat × Ty)} {ms : Members},
    (∀ v ∈ memVals ms, substTy m v = v) → substMembers m ms = ms
  | m, .nil, _ => rfl
  | m, .cons k v t, hp => by
    show Members.cons k (substTy m v) (substMembers m t) = Members.cons k v t
    have hv : v ∈ memVals (Members.cons k v t) := by
      show v ∈ ((k, v) :: t.toPairs).map Prod.snd
      simp
    rw [hp v hv, substMembers_fix_of (fun u hu => hp u (by
      show u ∈ ((k, v) :: t.toPairs).map Prod.snd
      simp only [List.map_cons, List.mem_cons]
      exact Or.inr hu))]

theorem substTy_fix {m : List (Nat × Ty)} {t : Ty} (hw : PyWf t) :
    hasDomVar (m.map Prod.fst) t = false → substTy m t = t := by
  induction hw with
  | obj => intro _; rfl
  | nothing => intro _; rfl
  | dynamic => intro _; rfl
  | var i =>
    intro hd
    show (lookupSubst m i).getD (.var i) = .var i
    have hd2 : decide (i ∈ m.map Prod.fst) = false := hd
    rw [lookupSubst_not_mem_none (of_decide_eq_false hd2)]
    rfl
  | @func args ret nm hargs hret ihargs ihret =>
    intro hd
    show Ty.func (substTyList m args) (substTy m ret) nm = Ty.func args ret nm
    have hd' : (tyListHasDomVar (m.map Prod.fst) args ||
      hasDomVar (m.map Prod.fst) ret) = false := hd
    rw [Bool.or_eq_false_iff] at hd'
    have helem := hd'.1
    rw [tyListHasDomVar_eq_any, List.any_eq_false] at helem
    rw [substTyList_fix_of (fun u hu =>
      ihargs u hu (Bool.eq_false_iff.mpr (helem u hu)))]
    rw [ihret hd'.2]
  | @inst mro mems nm h1 h2 h3 h4 h5 ih2 ih3 ih5 =>
    intro hd
    show Ty.inst mro (substMembers m mems) nm = Ty.inst mro mems nm
    have hd' : membersHasDomVar (m.map Prod.fst) mems = false := hd
    rw [membersHasDomVar_eq_any, List.any_eq_false] at hd'
    rw [substMembers_fix_of (fun v hv =>
      ih5 v hv (Bool.eq_false_iff.mpr (hd' v hv)))]
  | @union xs h1 h2 h3 h4 ih1 =>
    intro hd
    show mkUnion (TyList.toList (substTyList m xs)) = Ty.union xs
    have hd' : tyListHasDomVar (m.map Prod.fst) xs = false := hd
    rw [tyListHasDomVar_eq_any, List.any_eq_false] at hd'
    rw [substTyList_fix_of (fun u hu =>
      ih1 u hu (Bool.eq_false_iff.mpr (hd' u hu)))]
    exact mkUnion_canonical (PyWf.union h1 h2 h3 h4)
  | @const vs vt hvt ihvt => intro _; rfl

theorem substTy_wf {m : List (Nat × Ty)} {t : Ty} (hw : PyWf t)
    (hcod : ∀ p ∈ m, PyWf p.2) : PyWf (substTy m t) := by
  induction hw with
  | obj => exact PyWf.obj
  | nothing => exact PyWf.nothing
  | dynamic => exact PyWf.dynamic
  | var i =>
    show PyWf ((lookupSubst m i).getD (.var i))
    cases hl : lookupSubst m i with
    | none => exact PyWf.var i
    | some u => exact hcod (i, u) (lookupSubst_some_mem hl)
  | @func args ret nm hargs hret ihargs ihret =>
    show PyWf (Ty.func (substTyList m args) (substTy m ret) nm)
    refine PyWf.func ?_ ihret
    intro u hu
    rw [toList_substTyList] at hu
    obtain ⟨t0, ht0, rfl⟩ := List.mem_map.mp hu
    exact ihargs t0 ht0
  | @inst mro mems nm h1 h2 h3 h4 h5 ih2 ih3 ih5 =>
    show PyWf (Ty.inst mro (substMembers m mems) nm)
    refine PyWf.inst h1 h2 h3 ?_ ?_
    · rw [dictKeys_substMembers]; exact h4
    · intro v hv
      rw [memVals_substMembers] at hv
      obtain ⟨v0, hv0, rfl⟩ := List.mem_map.mp hv
      exact ih5 v0 hv0
  | @union xs h1 h2 h3 h4 ih1 =>
    show PyWf (mkUnion (TyList.toList (substTyList m xs)))
    refine mkUnion_wf ?_
    intro u hu
    rw [toList_substTyList] at hu
    obtain ⟨t0, ht0, rfl⟩ := List.mem_map.mp hu
    exact ih1 t0 ht0
  | @const vs vt hvt ihvt =>
    show PyWf (Ty.const vs vt)
    exact PyWf.const hvt

/-- Claim C8: substitution is idempotent for a non-self-referential
mapping.  If `t` is a representable type and every type in the mapping's
codomain is representable and mentions (at `visit` positions) no
variable of the mapping's domain, then substituting twice equals
substituting once. -/
theorem C8_substitution_idempotent
    (m : List (Nat × Ty)) (t : Ty) (ht : PyWf t)
    (hcod : ∀ p ∈ m, PyWf p.2)
    (hnd : ∀ p ∈ m, hasDomVar (m.map Prod.fst) p.2 = false) :
    substTy m (substTy m t) = substTy m t :=
  substTy_fix (substTy_wf ht hcod) (substTy_noDomVar m hnd t)

/-- Witness for C8: a mapping sending variable 1 to a union, applied to
a function type mentioning variables 1 and 2. -/
theorem C8_substitution_idempotent_witness :
    substTy [(1, Ty.union (.cons Ty.obj (.cons Ty.nothing .nil)))]
        (substTy [(1, Ty.union (.cons Ty.obj (.cons Ty.nothing .nil)))]
          (.func (.cons (.var 1) .nil) (.var 2) none)) =
      substTy [(1, Ty.union (.cons Ty.obj (.cons Ty.nothing .nil)))]
        (.func (.cons (.var 1) .nil) (.var 2) none) :=
  C8_substitution_idempotent
    [(1, Ty.union (.cons Ty.obj (.cons Ty.nothing .nil)))]
    (.func (.cons (.var 1) .nil) (.var 2) none)
    (by
      refine PyWf.func ?_ (PyWf.var 2)
      intro u hu
      simp only [TyList.toList] at hu
      rw [List.mem_singleton] at hu
      subst hu
      exact PyWf.var 1)
    (by
      intro p hp
      rw [List.mem_singleton] at hp
      subst hp
      refine PyWf.union ?_ (by decide) (by unfold distinctList; decide) (by decide)
      intro u hu
      simp only [TyList.toList] at hu
      rcases List.mem_cons.mp hu with h2 | h2
      · subst h2; exact PyWf.obj
      · rw [List.mem_singleton] at h2; subst h2; exact PyWf.nothing)
    (by
      intro p hp
      rw [List.mem_singleton] at hp
      subst hp
      rfl)
